import Mathlib

/-! red: UTF-8 codec, arena, growable sequence, loader, renderer, input decoder.

A shallow embedding of `common.cpp`, `editor.cpp`, `platform.h` and
`red_linux.cpp`, followed by theorems about it.

Conventions of the embedding:
* a byte buffer (`uint8_t *`) is a `List Nat` of bytes, read with `rd`;
* `uint32_t` / `size_t` values are `Nat`; a narrowing store keeps `% 256`;
* an out-parameter (`size_t *used`) is passed in and returned;
* a pointer into the arena is `Option Nat`: `none` is the null pointer and
  `some off` is `&mem_buffer[off]`;
* a failed `ASSERT` (a fatal fault) and a loop that outlives its fuel are `none`;
* `Text_Glyph` cells are compared field by field: their padding bytes are
  zero, the frames being zero-filled arena memory copied by `memcpy`.
-/

set_option maxRecDepth 100000

namespace Red

/-! ## common.cpp : the codec -/

/-- Byte read `buf[i]` of a `uint8_t *` buffer. -/
def rd (buf : List Nat) (i : Nat) : Nat := buf.getD i 0

/-- Encoder `utf32_to_8(cp, buf, sz)` of `common.cpp`: the returned pair is the
return value and the buffer after the stores (`buf[i] = e` keeps the low 8
bits of `e`). -/
def utf32_to_8 (cp : Nat) (buf : List Nat) (sz : Nat) : Nat × List Nat :=
  if cp ≤ 0x7F then
    if sz < 1 then (0, buf)
    else (1, buf.set 0 (cp % 256))
  else if cp ≤ 0x7FF then
    if sz < 2 then (0, buf)
    else (2, (buf.set 0 ((0xC0 ||| (cp >>> 6)) % 256)).set 1
              ((0x80 ||| (cp &&& 0x3F)) % 256))
  else if cp ≤ 0xFFFF then
    if sz < 3 then (0, buf)
    else (3, ((buf.set 0 ((0xE0 ||| (cp >>> 12)) % 256)).set 1
              ((0x80 ||| ((cp >>> 6) &&& 0x3F)) % 256)).set 2
              ((0x80 ||| (cp &&& 0x3F)) % 256))
  else if cp ≤ 0x10FFFF then
    if sz < 4 then (0, buf)
    else (4, (((buf.set 0 ((0xF0 ||| (cp >>> 18)) % 256)).set 1
              ((0x80 ||| ((cp >>> 12) &&& 0x3F)) % 256)).set 2
              ((0x80 ||| ((cp >>> 6) &&& 0x3F)) % 256)).set 3
              ((0x80 ||| (cp &&& 0x3F)) % 256))
  else (0, buf)

/-- Decoder `utf8_to_32(buf, sz, used)` of `common.cpp`: the returned pair is
the return value and `*used` after the call (`*used` is stored only on the
successful paths, so a failing call leaves it as it was). -/
def utf8_to_32 (buf : List Nat) (sz : Nat) (used : Nat) : Nat × Nat :=
  if sz < 1 then (0, used)
  else if rd buf 0 &&& 0x80 = 0x00 then (rd buf 0 &&& 0x7F, 1)
  else if rd buf 0 &&& 0xE0 = 0xC0 then
    if sz < 2 then (0, used)
    else ((rd buf 1 &&& 0x3F) ||| ((rd buf 0 &&& 0x1F) <<< 6), 2)
  else if rd buf 0 &&& 0xF0 = 0xE0 then
    if sz < 3 then (0, used)
    else ((rd buf 2 &&& 0x3F) ||| ((rd buf 1 &&& 0x3F) <<< 6)
            ||| ((rd buf 0 &&& 0x0F) <<< 12), 3)
  else if rd buf 0 &&& 0xF8 = 0xF0 then
    if sz < 4 then (0, used)
    else ((rd buf 3 &&& 0x3F) ||| ((rd buf 2 &&& 0x3F) <<< 6)
            ||| ((rd buf 1 &&& 0x3F) <<< 12)
            ||| ((rd buf 0 &&& 0x07) <<< 18), 4)
  else (0, used)

/-! ## platform.h : events -/

/-- The enumeration `Event_Type` of `platform.h`. -/
inductive Event_Type where
  | EVENT_NONE
  | EVENT_CHAR
  | EVENT_KEY
  deriving DecidableEq, Repr

/-- The enumeration `Key` of `platform.h`. -/
inductive Key where
  | KEY_NONE
  | KEY_UP
  | KEY_DOWN
  | KEY_RIGHT
  | KEY_LEFT
  deriving DecidableEq, Repr

/-- Numeric value of a `Key` (`KEY_NONE = 0`, then counting up). -/
def Key.val : Key → Nat
  | .KEY_NONE => 0
  | .KEY_UP => 1
  | .KEY_DOWN => 2
  | .KEY_RIGHT => 3
  | .KEY_LEFT => 4

/-- The struct `Event`: a type tag and the anonymous union of `cp` and `key`,
which share one `uint32_t`, kept here in `cp`. -/
structure Event where
  type : Event_Type
  cp : Nat
  deriving DecidableEq, Repr

/-- An `Event` after `memset(event, 0, sizeof(*event))`. -/
def Event.zero : Event := ⟨.EVENT_NONE, 0⟩

/-- The part of `Platform pf` (and the static `event_null`) that input decoding
touches: `should_close`, `events.data[4]`, `events.count`, `event_null`. -/
structure Pf where
  should_close : Bool
  events_data : List Event
  events_count : Nat
  event_null : Event
  deriving DecidableEq, Repr

/-- What `push_event` returns: `&event_null` or `&pf.events.data[i]`. -/
inductive EventPtr where
  | to_null
  | to_slot (i : Nat)
  deriving DecidableEq, Repr

/-- Function `push_event` of `red_linux.cpp` (`LEN(pf.events.data)` is 4). -/
def push_event (pf : Pf) : EventPtr × Pf :=
  if pf.events_count ≥ 4 then (.to_null, pf)
  else
    (.to_slot pf.events_count,
      { pf with events_data := pf.events_data.set pf.events_count Event.zero,
                events_count := pf.events_count + 1 })

/-- The two stores `event->type = ty; event->cp = v;` (or `event->key = v;`)
through a pointer returned by `push_event`. -/
def event_store (pf : Pf) (ptr : EventPtr) (ty : Event_Type) (v : Nat) : Pf :=
  match ptr with
  | .to_null => { pf with event_null := ⟨ty, v⟩ }
  | .to_slot i => { pf with events_data := pf.events_data.set i ⟨ty, v⟩ }

/-- A caller of `push_event` that writes the event `e` through the returned
pointer, as both branches of the input decoder do. -/
def push_written (pf : Pf) (e : Event) : Pf :=
  event_store (push_event pf).2 (push_event pf).1 e.type e.cp

/-- Function `get_event` of `editor.cpp`: null when `count <= 0`, else
`&data[--count]`; the event read through the pointer is returned. -/
def get_event (pf : Pf) : Option Event × Pf :=
  if pf.events_count ≤ 0 then (none, pf)
  else
    (some (pf.events_data.getD (pf.events_count - 1) Event.zero),
      { pf with events_count := pf.events_count - 1 })

/-- The drain loop at the head of `editor_frame`:
`while (true) { event = get_event(p); if (!event) break; ... }`, returning the
events it received in order; `none` when the fuel does not suffice. -/
def drain_events : Nat → Pf → Option (List Event × Pf)
  | 0, _ => none
  | fuel + 1, pf =>
    match get_event pf with
    | (none, pf1) => some ([], pf1)
    | (some e, pf1) =>
      match drain_events fuel pf1 with
      | none => none
      | some (es, pf2) => some (e :: es, pf2)

/-! ## red_linux.cpp : input decoding in `main` -/

/-- The loop `while (used < bytes) { cp = utf8_to_32(input, bytes-used, &used);
push a Character event }` of the text branch; `none` when the fuel runs out
before the loop condition fails. -/
def text_loop : Nat → List Nat → Nat → Nat → Pf → Option Pf
  | 0, _, _, _, _ => none
  | fuel + 1, input, bytes, used, pf =>
    if used < bytes then
      text_loop fuel input bytes (utf8_to_32 input (bytes - used) used).2
        (event_store (push_event pf).2 (push_event pf).1 .EVENT_CHAR
          (utf8_to_32 input (bytes - used) used).1)
    else some pf

/-- The `switch (input[2])` of the escape branch. -/
def key_of_byte (b : Nat) : Key :=
  if b = 0x41 then .KEY_UP
  else if b = 0x42 then .KEY_DOWN
  else if b = 0x43 then .KEY_RIGHT
  else if b = 0x44 then .KEY_LEFT
  else .KEY_NONE

/-- Input decoding of `main` after a successful `read` of `bytes > 0` bytes into
`input[16]`: the `q` check, then the escape branch or the text branch. -/
def decode_input (fuel : Nat) (input : List Nat) (bytes : Nat) (pf : Pf) : Option Pf :=
  let pf1 := if rd input 0 = 0x71 then { pf with should_close := true } else pf
  if rd input 0 = 0x1b then
    if rd input 1 = 0x5b then
      if key_of_byte (rd input 2) ≠ .KEY_NONE then
        some (event_store (push_event pf1).2 (push_event pf1).1 .EVENT_KEY
          (key_of_byte (rd input 2)).val)
      else some pf1
    else some pf1
  else text_loop fuel input bytes 0 pf1

/-! ## red_linux.cpp : the arena -/

/-- The constant `MEM_CAPACITY` (`640*1024`). -/
def MEM_CAPACITY : Nat := 640 * 1024

/-- Arithmetic of `size_t` (64 bits): the value kept after an overflow. -/
def wrap64 (n : Nat) : Nat := n % 18446744073709551616

/-- The statics `mem_buffer`, `mem_used`, `mem_used_max`; `mem_buffer` is given
by its byte at each offset. -/
structure Arena where
  mem_buffer : Nat → Nat
  mem_used : Nat
  mem_used_max : Nat

/-- The call `memset(&m[start], 0, len)`. -/
def memset_zero (m : Nat → Nat) (start len : Nat) : Nat → Nat :=
  fun i => if start ≤ i ∧ i < start + len then 0 else m i

/-- Function `mem_alloc_zeroed`: the offset of the returned block in
`mem_buffer` and the arena after the call; `none` when the `ASSERT` fails. -/
def mem_alloc_zeroed (a : Arena) (sz : Nat) : Option (Nat × Arena) :=
  if wrap64 (a.mem_used + sz) ≤ MEM_CAPACITY then
    if wrap64 (a.mem_used + sz) > a.mem_used_max then
      some (a.mem_used,
        { a with mem_used := wrap64 (a.mem_used + sz),
                 mem_used_max := wrap64 (a.mem_used + sz) })
    else if wrap64 (a.mem_used + sz) < a.mem_used_max then
      some (a.mem_used,
        { a with mem_buffer := memset_zero a.mem_buffer a.mem_used
                   (a.mem_used_max - wrap64 (a.mem_used + sz)),
                 mem_used := wrap64 (a.mem_used + sz) })
    else
      some (a.mem_used, { a with mem_used := wrap64 (a.mem_used + sz) })
  else none

/-- Function `mem_realloc_zeroed(ptr, sz, newsz)`; the test
`buffer == &mem_buffer[mem_used - sz]` compares offsets, the subtraction being
that of `size_t`. -/
def mem_realloc_zeroed (a : Arena) (ptr : Option Nat) (sz newsz : Nat) :
    Option (Option Nat × Arena) :=
  match ptr with
  | none =>
    match mem_alloc_zeroed a newsz with
    | none => none
    | some (q, a1) => some (some q, a1)
  | some p =>
    if newsz ≤ sz then some (some p, a)
    else if p = wrap64 (a.mem_used + 18446744073709551616 - sz) then
      match mem_alloc_zeroed a (newsz - sz) with
      | none => none
      | some (_, a1) => some (some p, a1)
    else
      match mem_alloc_zeroed a newsz with
      | none => none
      | some (q, a1) => some (some q, a1)

/-! ## editor.cpp : the growable sequence and the loader -/

/-- The struct `Region`: `data` (a pointer into the arena), `count`, `capacity`. -/
structure Region where
  data : Option Nat
  count : Nat
  capacity : Nat
  deriving DecidableEq, Repr

/-- Function `array_ensure` at `T = Region`, whose elements are `uint32_t`
(`sizeof(*array->data)` is 4). -/
def array_ensure (a : Arena) (r : Region) (count : Nat) : Option (Arena × Region) :=
  if wrap64 (r.count + count) > r.capacity then
    match mem_realloc_zeroed a r.data (wrap64 (r.capacity * 4))
        (wrap64 (wrap64 (r.capacity + max r.capacity count) * 4)) with
    | none => none
    | some (buffer, a1) =>
      some (a1, { r with capacity := wrap64 (r.capacity + max r.capacity count),
                         data := buffer })
  else some (a, r)

/-- Function `array_append_many`: the pointer `&array->data[array->count]` taken
before `count` is advanced, with the new state. -/
def array_append_many (a : Arena) (r : Region) (count : Nat) :
    Option (Option Nat × Arena × Region) :=
  match array_ensure a r count with
  | none => none
  | some (a1, r1) =>
    some (r1.data.map (fun p => p + 4 * r1.count), a1,
      { r1 with count := wrap64 (r1.count + count) })

/-- Function `array_append`. -/
def array_append (a : Arena) (r : Region) : Option (Option Nat × Arena × Region) :=
  array_append_many a r 1

/-- A `uint32_t` store `*ptr = v` at offset `off` of `mem_buffer` (little
endian). -/
def store32 (m : Nat → Nat) (off v : Nat) : Nat → Nat :=
  fun i =>
    if i = off then v % 256
    else if i = off + 1 then v / 256 % 256
    else if i = off + 2 then v / 65536 % 256
    else if i = off + 3 then v / 16777216 % 256
    else m i

/-- A `uint32_t` load at offset `off` of `mem_buffer`. -/
def load32 (m : Nat → Nat) (off : Nat) : Nat :=
  m off + 256 * m (off + 1) + 65536 * m (off + 2) + 16777216 * m (off + 3)

/-- The statement `*array_append(p, region) = v;`; a store through a null
pointer is a fault. -/
def append_store (a : Arena) (r : Region) (v : Nat) : Option (Arena × Region) :=
  match array_append a r with
  | none => none
  | some (none, _, _) => none
  | some (some ptr, a1, r1) => some ({ a1 with mem_buffer := store32 a1.mem_buffer ptr v }, r1)

/-- The codepoints `data[0] .. data[count-1]` of a Region. -/
def region_data (a : Arena) (r : Region) : List Nat :=
  match r.data with
  | none => []
  | some p => (List.range r.count).map (fun i => load32 a.mem_buffer (p + 4 * i))

/-- Appending the values of a list one at a time with `array_append`. -/
def append_all : List Nat → Arena → Region → Option (Arena × Region)
  | [], a, r => some (a, r)
  | v :: t, a, r =>
    match append_store a r v with
    | none => none
    | some (a1, r1) => append_all t a1 r1

/-- The `while (pos < size)` loop of `ed_load_file_region`; `src` is the mapped
file, and `none` is a fault or the fuel running out. -/
def load_loop : Nat → List Nat → Nat → Nat → Bool → Arena → Region → Option (Arena × Region)
  | 0, _, _, _, _, _, _ => none
  | fuel + 1, src, size, pos, prev_cr, a, r =>
    if pos < size then
      if (utf8_to_32 (src.drop pos) (size - pos) 0).1 = 0x0D then
        load_loop fuel src size (pos + (utf8_to_32 (src.drop pos) (size - pos) 0).2) true a r
      else if prev_cr then
        match append_store a r 0x0A with
        | none => none
        | some (a1, r1) =>
          if (utf8_to_32 (src.drop pos) (size - pos) 0).1 = 0x0A then
            load_loop fuel src size (pos + (utf8_to_32 (src.drop pos) (size - pos) 0).2)
              false a1 r1
          else
            match append_store a1 r1 (utf8_to_32 (src.drop pos) (size - pos) 0).1 with
            | none => none
            | some (a2, r2) =>
              load_loop fuel src size (pos + (utf8_to_32 (src.drop pos) (size - pos) 0).2)
                false a2 r2
      else
        match append_store a r (utf8_to_32 (src.drop pos) (size - pos) 0).1 with
        | none => none
        | some (a2, r2) =>
          load_loop fuel src size (pos + (utf8_to_32 (src.drop pos) (size - pos) 0).2)
            prev_cr a2 r2
    else some (a, r)

/-- Function `ed_load_file_region`, on the mapped bytes `src` of the file:
`array_ensure(p, region, size)`, then the loop (the `unmap` follows it). -/
def ed_load_file_region (fuel : Nat) (src : List Nat) (size : Nat) (a : Arena) (r : Region) :
    Option (Arena × Region) :=
  match array_ensure a r size with
  | none => none
  | some (a1, r1) => load_loop fuel src size 0 false a1 r1

/-- The arena at program start: `mem_buffer` all zero, nothing used. -/
def Arena.init : Arena := ⟨fun _ => 0, 0, 0⟩

/-- An empty Region (zeroed storage). -/
def Region.empty : Region := ⟨none, 0, 0⟩

/-- Reference normalisation of line endings, written after the specification:
every `\r\n` pair becomes one `\n`, every remaining `\r` becomes one `\n`, and
every other byte is kept. -/
def normalize_ref : List Nat → List Nat
  | [] => []
  | [c] => if c = 0x0D then [0x0A] else [c]
  | c :: d :: t =>
    if c = 0x0D then
      if d = 0x0A then 0x0A :: normalize_ref t else 0x0A :: normalize_ref (d :: t)
    else c :: normalize_ref (d :: t)

/-- State of a Region that owns the topmost block of the arena and holds the
values `done`. -/
structure SeqInv (p : Nat) (a : Arena) (r : Region) (done : List Nat) : Prop where
  hdata : r.data = some p
  hcount : r.count = done.length
  hpos : 1 ≤ r.count
  hcap : r.count ≤ r.capacity
  hgrow : r.capacity + 1 ≤ 2 * r.count
  htop : p + 4 * r.capacity = a.mem_used
  hval : (List.range r.count).map (fun i => load32 a.mem_buffer (p + 4 * i)) = done

/-- A call of the arena, for allocation histories: `alloc sz` is
`mem_alloc_zeroed(sz)`, and `realloc i newsz` is `mem_realloc_zeroed` called on
the `i`-th block of the history with its recorded size. -/
inductive ArenaOp where
  | alloc (sz : Nat)
  | realloc (i : Nat) (newsz : Nat)
  deriving DecidableEq, Repr

/-- The size an arena call asks for. -/
def ArenaOp.size : ArenaOp → Nat
  | .alloc sz => sz
  | .realloc _ newsz => newsz

/-- The enumeration `Color` of `platform.h`. -/
inductive Color where
  | COLOR_DEFAULT
  | COLOR_BLACK
  | COLOR_RED
  | COLOR_YELLOW
  | COLOR_BLUE
  | COLOR_LIGHT_YELLOW
  | COLOR_LIGHT_BLUE
  deriving DecidableEq, Repr

/-- The struct `Text_Glyph`. -/
structure Text_Glyph where
  codepoint : Nat
  fg : Color
  bg : Color
  deriving DecidableEq, Repr

/-- A `Text_Glyph` of zeroed storage. -/
def Text_Glyph.zero : Text_Glyph := ⟨0, .COLOR_DEFAULT, .COLOR_DEFAULT⟩

/-- The struct `Frame`: `glyphs` holds the cells, row after row; `width` and
`height` come from the terminal size (`unsigned short`), so they are natural
numbers. -/
structure Frame where
  glyphs : List Text_Glyph
  width : Nat
  height : Nat
  deriving DecidableEq, Repr

/-- Cell read `frame.glyphs[idx]`. -/
def Frame.cell (f : Frame) (idx : Nat) : Text_Glyph := f.glyphs.getD idx Text_Glyph.zero

/-- What `display` writes to `stdout`, one item per output statement: the
`printf` of `ESC_HOME`, of `ESC_RESET`, of `set_term_cursor(x, y)`, of
`fg_escapes[c]`, of `bg_escapes[c]`, and the `fputc` loop over the encoded
bytes of one glyph. -/
inductive Esc where
  | home
  | reset
  | cursor (x y : Int)
  | fg (c : Color)
  | bg (c : Color)
  | glyph (bytes : List Nat)
  deriving DecidableEq, Repr

/-- Decimal digits of a natural number, as ASCII bytes. -/
def dec_bytes (n : Nat) : List Nat := (Nat.toDigits 10 n).map Char.toNat

/-- Output of the conversion `%d`. -/
def int_bytes (i : Int) : List Nat :=
  if i < 0 then 0x2D :: dec_bytes i.natAbs else dec_bytes i.natAbs

/-- The table `fg_escapes`, without the leading `ESC [` and the final `m`. -/
def fg_code : Color → Nat
  | .COLOR_DEFAULT => 39
  | .COLOR_BLACK => 30
  | .COLOR_RED => 31
  | .COLOR_YELLOW => 33
  | .COLOR_BLUE => 34
  | .COLOR_LIGHT_YELLOW => 93
  | .COLOR_LIGHT_BLUE => 94

/-- The table `bg_escapes`, without the leading `ESC [` and the final `m`. -/
def bg_code : Color → Nat
  | .COLOR_DEFAULT => 49
  | .COLOR_BLACK => 40
  | .COLOR_RED => 41
  | .COLOR_YELLOW => 43
  | .COLOR_BLUE => 44
  | .COLOR_LIGHT_YELLOW => 103
  | .COLOR_LIGHT_BLUE => 104

/-- The bytes each output statement sends: `ESC [ H`, `ESC [ 0 m`,
`ESC [ y+1 ; x+1 H`, `ESC [ code m`, and the glyph's bytes. -/
def Esc.bytes : Esc → List Nat
  | .home => [0x1b, 0x5b, 0x48]
  | .reset => [0x1b, 0x5b, 0x30, 0x6d]
  | .cursor x y => [0x1b, 0x5b] ++ int_bytes (y + 1) ++ [0x3b] ++ int_bytes (x + 1) ++ [0x48]
  | .fg c => [0x1b, 0x5b] ++ dec_bytes (fg_code c) ++ [0x6d]
  | .bg c => [0x1b, 0x5b] ++ dec_bytes (bg_code c) ++ [0x6d]
  | .glyph bytes => bytes

/-- Locals of `display` during the sweep: the colours last emitted, and what
has been written to `stdout` so far. -/
structure Sweep where
  fg : Color
  bg : Color
  out : List Esc
  deriving DecidableEq, Repr

/-- The `fputc` loop of `display`: the first `len` bytes of the local `buf[4]`
after `len = utf32_to_8(g->codepoint, buf, sizeof(buf))`. -/
def glyph_bytes (cp : Nat) : List Nat :=
  (utf32_to_8 cp [0, 0, 0, 0] 4).2.take (utf32_to_8 cp [0, 0, 0, 0] 4).1

/-- Body of the inner loop of `display` at `(row, col)`; `mem_equal` over one
`Text_Glyph` is equality of the cells. -/
def display_cell (back front : Frame) (row col : Nat) (s : Sweep) : Sweep :=
  if back.cell (row * back.width + col) = front.cell (row * back.width + col) then s
  else
    { fg := if (back.cell (row * back.width + col)).fg ≠ s.fg
        then (back.cell (row * back.width + col)).fg else s.fg,
      bg := if (back.cell (row * back.width + col)).bg ≠ s.bg
        then (back.cell (row * back.width + col)).bg else s.bg,
      out := s.out ++ [Esc.cursor col row]
        ++ (if (back.cell (row * back.width + col)).fg ≠ s.fg
            then [Esc.fg (back.cell (row * back.width + col)).fg] else [])
        ++ (if (back.cell (row * back.width + col)).bg ≠ s.bg
            then [Esc.bg (back.cell (row * back.width + col)).bg] else [])
        ++ [Esc.glyph (glyph_bytes (back.cell (row * back.width + col)).codepoint)] }

/-- The inner loop `for (col = 0; col < back.width; ++col)`. -/
def display_row (back front : Frame) (row : Nat) (s : Sweep) : Sweep :=
  (List.range back.width).foldl (fun st col => display_cell back front row col st) s

/-- The row-major sweep: the outer loop `for (row = 0; row < back.height; ++row)`,
entered with both colours `COLOR_DEFAULT` and nothing written. -/
def display_sweep (back front : Frame) : Sweep :=
  (List.range back.height).foldl (fun st row => display_row back front row st)
    ⟨.COLOR_DEFAULT, .COLOR_DEFAULT, []⟩

/-- Function `frame_buf_size`, counted in glyphs. -/
def frame_cells (f : Frame) : Nat := f.width * f.height

/-- Function `display`: what it writes to `stdout` and the frame `front` after
the `memcpy`; `none` when one of the two `ASSERT`s fails. -/
def display (back front : Frame) : Option (List Esc × Frame) :=
  if front.width = back.width ∧ front.height = back.height then
    some ([Esc.home, Esc.reset] ++ (display_sweep back front).out
        ++ [Esc.cursor ((back.width : Int) - 1) ((back.height : Int) - 1)],
      { front with glyphs := back.glyphs.take (frame_cells back)
                     ++ front.glyphs.drop (frame_cells back) })
  else none

/-- The bytes `display` sends to the terminal. -/
def display_bytes (back front : Frame) : Option (List Nat) :=
  (display back front).map (fun r => r.1.flatMap Esc.bytes)

/-- The codepoints the loop of `ed_load_file_region` appends on input bytes
that each decode to themselves (ASCII), as a function of the pending flag
`prev_cr`: the loop with the arena and the Region left out. -/
def load_model : Bool → List Nat → List Nat
  | _, [] => []
  | prev_cr, c :: t =>
    if c = 0x0D then load_model true t
    else if prev_cr then
      if c = 0x0A then 0x0A :: load_model false t
      else 0x0A :: c :: load_model false t
    else c :: load_model false t

/-- Every `\r` of the input is followed by a byte other than `\r`. -/
def cr_followed : List Nat → Bool
  | [] => true
  | [c] => decide (c ≠ 0x0D)
  | c :: d :: t => (decide (c ≠ 0x0D) || decide (d ≠ 0x0D)) && cr_followed (d :: t)

/-- A Region that holds the values `done` in the block at offset `p`. -/
structure RegInv (p : Nat) (a : Arena) (r : Region) (done : List Nat) : Prop where
  hdata : r.data = some p
  hcount : r.count = done.length
  hcapb : r.capacity ≤ MEM_CAPACITY
  hval : (List.range r.count).map (fun i => load32 a.mem_buffer (p + 4 * i)) = done

/-! ## Reference definitions for the codec -/

/-- Length announced by a leading byte, by its high bits: `0xxxxxxx` 1,
`110xxxxx` 2, `1110xxxx` 3, `11110xxx` 4, and 0 when it matches none. -/
def announced_len (b : Nat) : Nat :=
  if b / 128 = 0 then 1
  else if b / 32 = 6 then 2
  else if b / 16 = 14 then 3
  else if b / 8 = 30 then 4
  else 0

/-- Payload bits of a leading byte: what is left below the length marker. -/
def lead_payload (b : Nat) : Nat :=
  if b / 128 = 0 then b % 128
  else if b / 32 = 6 then b % 32
  else if b / 16 = 14 then b % 16
  else b % 8

/-- Reference decoder, written after the specification: fail with `(0, 0)`
when no byte is available, the leading byte matches no pattern or fewer bytes
remain than it announces; otherwise the leading byte's payload bits followed by
the low 6 bits of each following byte, and the announced length. -/
def utf8_decode_ref (buf : List Nat) (max_len : Nat) : Nat × Nat :=
  if max_len = 0 ∨ announced_len (rd buf 0) = 0 ∨ max_len < announced_len (rd buf 0) then
    (0, 0)
  else
    (((buf.drop 1).take (announced_len (rd buf 0) - 1)).foldl
        (fun acc c => acc * 64 + c % 64) (lead_payload (rd buf 0)),
      announced_len (rd buf 0))

/-! ## editor.cpp : painting the frame -/

/-- Outcome of `ed_pf_put`: the `ASSERT` failed (a fatal fault), the store
went to a cell of the frame, or the store went through a pointer outside the
frame's cells (`idx` is the index it used). -/
inductive PutResult where
  | fault
  | stored (f : Frame)
  | stray (idx : Int)
  deriving DecidableEq, Repr

/-- Function `ed_pf_put`: `ASSERT((x < width) && (y < height))`, then the
three stores through `&glyphs[y * width + x]`; `x` and `y` are `int`. -/
def ed_pf_put (f : Frame) (x y : Int) (cp : Nat) (fg bg : Color) : PutResult :=
  if x < f.width ∧ y < f.height then
    if 0 ≤ y * f.width + x ∧ y * f.width + x < f.glyphs.length then
      .stored { f with glyphs := f.glyphs.set (y * f.width + x).toNat ⟨cp, fg, bg⟩ }
    else .stray (y * f.width + x)
  else .fault

/-- Body of the loops of `ed_pf_clear` at `(x, y)`: the codepoint becomes a
space and the background `COLOR_DEFAULT`; the foreground is not touched. -/
def clear_cell (f : Frame) (w y x : Nat) : Frame :=
  { f with glyphs := f.glyphs.set (y * w + x)
             { f.cell (y * w + x) with codepoint := 0x20, bg := .COLOR_DEFAULT } }

/-- Function `ed_pf_clear`. -/
def ed_pf_clear (f : Frame) : Frame :=
  (List.range f.height).foldl
    (fun f1 y => (List.range f.width).foldl (fun f2 x => clear_cell f2 f.width y x) f1) f

/-- The struct `Cursor`. -/
structure Cursor where
  line : Nat
  col : Nat
  deriving DecidableEq, Repr

/-- The struct `Editor`. -/
structure Editor where
  region : Region
  primary : Cursor
  mark : Cursor
  deriving DecidableEq, Repr

/-- The painting loop of `editor_frame` over the codepoints `data[i]`,
`i < count`, with the locals `x` and `y`; `none` when `ed_pf_put` does not
store in a cell. -/
def paint_loop : List Nat → Editor → Nat → Nat → Frame → Option Frame
  | [], _, _, _, f => some f
  | cp :: t, e, x, y, f =>
    if y ≥ f.height then some f
    else if x < f.width then
      if cp = 0x0A then paint_loop t e 0 (y + 1) f
      else
        match ed_pf_put f x y cp
            (if x = e.primary.col ∧ y = e.primary.line then .COLOR_BLACK else .COLOR_DEFAULT)
            (if x = e.primary.col ∧ y = e.primary.line then .COLOR_LIGHT_YELLOW
              else if x = e.mark.col ∧ y = e.mark.line then .COLOR_LIGHT_BLUE
              else .COLOR_DEFAULT) with
        | .stored f2 => paint_loop t e (x + 1) y f2
        | _ => none
    else paint_loop t e x y f

/-- Function `editor_frame`: the events are drained, the frame is cleared,
and the Region is painted; the result is the platform state and the frame. -/
def editor_frame (a : Arena) (e : Editor) (pf : Pf) (back : Frame) : Option (Pf × Frame) :=
  match drain_events (pf.events_count + 1) pf with
  | none => none
  | some (_, pf1) =>
    match paint_loop (region_data a e.region) e 0 0 (ed_pf_clear back) with
    | none => none
    | some f => some (pf1, f)

/-- The lines of a Region: its codepoints split at every `\n`. -/
def region_lines (data : List Nat) : List (List Nat) := data.splitOn 0x0A

/-- Reference content of the cell `(x, y)` after painting, written after C20:
the `x`-th codepoint of the `y`-th line when the line has more than `x`
codepoints, and a space otherwise. -/
def painted_ref (data : List Nat) (y x : Nat) : Nat :=
  ((region_lines data).getD y []).getD x 0x20

/-! ## Arena histories with client writes -/

/-- A step of a client of the arena: a call of the arena, or the store of the
byte `v` at offset `off` of the `i`-th block of the allocation history. -/
inductive MemOp where
  | call (op : ArenaOp)
  | write (i off v : Nat)
  deriving DecidableEq, Repr

/-- The size a step asks the arena for (a store asks for nothing). -/
def MemOp.size : MemOp → Nat
  | .call op => op.size
  | .write _ _ _ => 0

/-- The locals of the loop of `ed_load_file_region` with the state it works
on: `pos`, `prev_cr`, the arena and the Region. -/
structure LoadState where
  pos : Nat
  prev_cr : Bool
  a : Arena
  r : Region

/-- One iteration of the loop `while (pos < size)` of `ed_load_file_region`,
entered with `pos < size`; `none` is a fault. -/
def load_step (src : List Nat) (size : Nat) (s : LoadState) : Option LoadState :=
  if (utf8_to_32 (src.drop s.pos) (size - s.pos) 0).1 = 0x0D then
    some ⟨s.pos + (utf8_to_32 (src.drop s.pos) (size - s.pos) 0).2, true, s.a, s.r⟩
  else if s.prev_cr then
    match append_store s.a s.r 0x0A with
    | none => none
    | some (a1, r1) =>
      if (utf8_to_32 (src.drop s.pos) (size - s.pos) 0).1 = 0x0A then
        some ⟨s.pos + (utf8_to_32 (src.drop s.pos) (size - s.pos) 0).2, false, a1, r1⟩
      else
        match append_store a1 r1 (utf8_to_32 (src.drop s.pos) (size - s.pos) 0).1 with
        | none => none
        | some (a2, r2) =>
          some ⟨s.pos + (utf8_to_32 (src.drop s.pos) (size - s.pos) 0).2, false, a2, r2⟩
  else
    match append_store s.a s.r (utf8_to_32 (src.drop s.pos) (size - s.pos) 0).1 with
    | none => none
    | some (a2, r2) =>
      some ⟨s.pos + (utf8_to_32 (src.drop s.pos) (size - s.pos) 0).2, s.prev_cr, a2, r2⟩

/-- The state of the loop after at most `k` iterations (fewer when the loop
condition fails earlier); `none` is a fault. -/
def load_iter (src : List Nat) (size : Nat) : Nat → LoadState → Option LoadState
  | 0, s => some s
  | k + 1, s =>
    if s.pos < size then
      match load_step src size s with
      | none => none
      | some s1 => load_iter src size k s1
    else some s

/-- Every decode step of the loop from `pos` on consumes at least one byte,
checked along the positions the loop visits, for at most `fuel` steps; with
`fuel = size` every step is checked, each one advancing `pos` by at least 1. -/
def decode_progress : Nat → List Nat → Nat → Nat → Bool
  | 0, _, _, _ => true
  | fuel + 1, src, size, pos =>
    if pos < size then
      decide (1 ≤ (utf8_to_32 (src.drop pos) (size - pos) 0).2) &&
        decode_progress fuel src size (pos + (utf8_to_32 (src.drop pos) (size - pos) 0).2)
    else true

/-- Invariant of the loop of the loader: the Region keeps the block at `p` and
the capacity `cap`, it holds what it held before the loop (`done0`) followed by
the appended codepoints `app`, none of which is `\r`, and the appended
codepoints plus the pending flag do not outnumber the bytes consumed. -/
structure LoadInv (size p cap : Nat) (done0 : List Nat) (s : LoadState) (app : List Nat) :
    Prop where
  hreg : RegInv p s.a s.r (done0 ++ app)
  hcap : s.r.capacity = cap
  hroom : done0.length + size ≤ cap
  hbound : app.length + (if s.prev_cr then 1 else 0) ≤ s.pos
  hpos : s.pos ≤ size
  hnocr : ∀ v ∈ app, v ≠ 0x0D

/-! ## Reference definitions for the encoder -/

/-- Encoded length by value range, `L(cp)` of the specification: 1 up to
`0x7F`, 2 up to `0x7FF`, 3 up to `0xFFFF`, 4 up to `0x10FFFF`. -/
def utf8_len (cp : Nat) : Nat :=
  if cp ≤ 0x7F then 1
  else if cp ≤ 0x7FF then 2
  else if cp ≤ 0xFFFF then 3
  else 4

/-- Reference encoder, written after the specification: the leading byte
carries the length marker `0`, `110`, `1110` or `11110` and the top payload
bits, and every following byte is `10` followed by the next 6 payload bits. -/
def utf8_encode_ref (cp : Nat) : List Nat :=
  if cp ≤ 0x7F then [cp]
  else if cp ≤ 0x7FF then [0xC0 + cp / 64, 0x80 + cp % 64]
  else if cp ≤ 0xFFFF then [0xE0 + cp / 4096, 0x80 + cp / 64 % 64, 0x80 + cp % 64]
  else [0xF0 + cp / 262144, 0x80 + cp / 4096 % 64, 0x80 + cp / 64 % 64, 0x80 + cp % 64]

/-! # Theorems -/

/-! ### Bit-level facts used by the codec proofs -/

theorem and_63 (x : Nat) : x &&& 0x3F = x % 64 :=
  Nat.and_pow_two_sub_one_eq_mod x 6

theorem and_127 (x : Nat) : x &&& 0x7F = x % 128 :=
  Nat.and_pow_two_sub_one_eq_mod x 7

theorem and_31 (x : Nat) : x &&& 0x1F = x % 32 :=
  Nat.and_pow_two_sub_one_eq_mod x 5

theorem and_15 (x : Nat) : x &&& 0x0F = x % 16 :=
  Nat.and_pow_two_sub_one_eq_mod x 4

theorem and_7 (x : Nat) : x &&& 0x07 = x % 8 :=
  Nat.and_pow_two_sub_one_eq_mod x 3

theorem or_shl (lo hi k : Nat) (h : lo < 2 ^ k) :
    lo ||| (hi <<< k) = hi * 2 ^ k + lo := by
  rw [Nat.shiftLeft_eq, Nat.lor_comm, Nat.mul_comm hi, ← Nat.mul_add_lt_is_or h]

theorem byte_lead_1 : ∀ b : Fin 256, (b.val &&& 0x80 = 0x00 ↔ b.val < 128) := by
  decide

theorem byte_lead_2 : ∀ b : Fin 256,
    (b.val &&& 0xE0 = 0xC0 ↔ 192 ≤ b.val ∧ b.val < 224) := by
  decide

theorem byte_lead_3 : ∀ b : Fin 256,
    (b.val &&& 0xF0 = 0xE0 ↔ 224 ≤ b.val ∧ b.val < 240) := by
  decide

theorem byte_lead_4 : ∀ b : Fin 256,
    (b.val &&& 0xF8 = 0xF0 ↔ 240 ≤ b.val ∧ b.val < 248) := by
  decide

theorem enc_cont : ∀ r : Fin 64, (0x80 ||| r.val) % 256 = 128 + r.val := by
  decide

theorem enc_lead_2 : ∀ q : Fin 32, (0xC0 ||| q.val) % 256 = 192 + q.val := by
  decide

theorem enc_lead_3 : ∀ q : Fin 16, (0xE0 ||| q.val) % 256 = 224 + q.val := by
  decide

theorem enc_lead_4 : ∀ q : Fin 8, (0xF0 ||| q.val) % 256 = 240 + q.val := by
  decide

theorem lead_1_iff (b : Nat) (h : b < 256) : (b &&& 0x80 = 0x00) ↔ b / 128 = 0 := by
  have := byte_lead_1 ⟨b, h⟩
  simp only [Fin.val_mk] at this
  rw [this]; omega

theorem lead_2_iff (b : Nat) (h : b < 256) : (b &&& 0xE0 = 0xC0) ↔ b / 32 = 6 := by
  have := byte_lead_2 ⟨b, h⟩
  simp only [Fin.val_mk] at this
  rw [this]; omega

theorem lead_3_iff (b : Nat) (h : b < 256) : (b &&& 0xF0 = 0xE0) ↔ b / 16 = 14 := by
  have := byte_lead_3 ⟨b, h⟩
  simp only [Fin.val_mk] at this
  rw [this]; omega

theorem lead_4_iff (b : Nat) (h : b < 256) : (b &&& 0xF8 = 0xF0) ↔ b / 8 = 30 := by
  have := byte_lead_4 ⟨b, h⟩
  simp only [Fin.val_mk] at this
  rw [this]; omega

theorem or2 (c1 p : Nat) : (c1 &&& 0x3F) ||| ((p &&& 0x1F) <<< 6) = p % 32 * 64 + c1 % 64 := by
  rw [and_63, and_31, or_shl _ _ 6 (by have := Nat.mod_lt c1 (show 64 > 0 by norm_num); omega)]
  norm_num

theorem or3 (c2 c1 p : Nat) :
    (c2 &&& 0x3F) ||| ((c1 &&& 0x3F) <<< 6) ||| ((p &&& 0x0F) <<< 12)
      = (p % 16 * 64 + c1 % 64) * 64 + c2 % 64 := by
  have h1 := Nat.mod_lt c1 (show 64 > 0 by norm_num)
  have h2 := Nat.mod_lt c2 (show 64 > 0 by norm_num)
  rw [and_63, and_63, and_15, or_shl _ _ 6 (by omega), or_shl _ _ 12 (by norm_num; omega)]
  norm_num; omega

theorem or4 (c3 c2 c1 p : Nat) :
    (c3 &&& 0x3F) ||| ((c2 &&& 0x3F) <<< 6) ||| ((c1 &&& 0x3F) <<< 12)
        ||| ((p &&& 0x07) <<< 18)
      = ((p % 8 * 64 + c1 % 64) * 64 + c2 % 64) * 64 + c3 % 64 := by
  have h1 := Nat.mod_lt c1 (show 64 > 0 by norm_num)
  have h2 := Nat.mod_lt c2 (show 64 > 0 by norm_num)
  have h3 := Nat.mod_lt c3 (show 64 > 0 by norm_num)
  rw [and_63, and_63, and_63, and_7, or_shl _ _ 6 (by omega),
    or_shl _ _ 12 (by norm_num; omega), or_shl _ _ 18 (by norm_num; omega)]
  norm_num; omega

/-- The decoder in arithmetic form, for any initial value of `*used`. -/
theorem utf8_to_32_eq (buf : List Nat) (sz u : Nat)
    (hb : ∀ b ∈ buf, b < 256) (hsz : sz ≤ buf.length) :
    utf8_to_32 buf sz u =
      if sz = 0 ∨ announced_len (rd buf 0) = 0 ∨ sz < announced_len (rd buf 0) then (0, u)
      else
        (((buf.drop 1).take (announced_len (rd buf 0) - 1)).foldl
            (fun acc c => acc * 64 + c % 64) (lead_payload (rd buf 0)),
          announced_len (rd buf 0)) := by
  rcases buf with _ | ⟨b0, t⟩
  · simp at hsz; subst hsz; simp [utf8_to_32]
  · have h0 : b0 < 256 := hb b0 (by simp)
    have hr0 : rd (b0 :: t) 0 = b0 := rfl
    unfold utf8_to_32
    simp only [hr0, lead_1_iff _ h0, lead_2_iff _ h0, lead_3_iff _ h0, lead_4_iff _ h0]
    unfold announced_len lead_payload
    by_cases hz : sz = 0
    · simp [hz]
    have hz1 : ¬ sz < 1 := by omega
    by_cases c1 : b0 / 128 = 0
    · simp [c1, hz, hz1, and_127]
    by_cases c2 : b0 / 32 = 6
    · by_cases hs : sz < 2
      · simp [c1, c2, hz, hz1, hs]
      · rcases t with _ | ⟨b1, t⟩
        · simp at hsz; omega
        · have hr1 : rd (b0 :: b1 :: t) 1 = b1 := rfl
          simp [c1, c2, hz, hz1, hs, hr1, or2]
    by_cases c3 : b0 / 16 = 14
    · by_cases hs : sz < 3
      · simp [c1, c2, c3, hz, hz1, hs]
      · rcases t with _ | ⟨b1, _ | ⟨b2, t⟩⟩
        · simp at hsz; omega
        · simp at hsz; omega
        · have hr1 : rd (b0 :: b1 :: b2 :: t) 1 = b1 := rfl
          have hr2 : rd (b0 :: b1 :: b2 :: t) 2 = b2 := rfl
          simp [c1, c2, c3, hz, hz1, hs, hr1, hr2, or3]
    by_cases c4 : b0 / 8 = 30
    · by_cases hs : sz < 4
      · simp [c1, c2, c3, c4, hz, hz1, hs]
      · rcases t with _ | ⟨b1, _ | ⟨b2, _ | ⟨b3, t⟩⟩⟩
        · simp at hsz; omega
        · simp at hsz; omega
        · simp at hsz; omega
        · have hr1 : rd (b0 :: b1 :: b2 :: b3 :: t) 1 = b1 := rfl
          have hr2 : rd (b0 :: b1 :: b2 :: b3 :: t) 2 = b2 := rfl
          have hr3 : rd (b0 :: b1 :: b2 :: b3 :: t) 3 = b3 := rfl
          simp [c1, c2, c3, c4, hz, hz1, hs, hr1, hr2, hr3, or4]
    · simp [c1, c2, c3, c4, hz, hz1]

/-! ### C1 : round trip -/

theorem dec_enc_2 (q r u : Nat) (t : List Nat) (hq : q < 32) (hr : r < 64) :
    utf8_to_32 ((192 + q) :: (128 + r) :: t) 2 u = (q * 64 + r, 2) := by
  have h0 : 192 + q < 256 := by omega
  have a1 : ¬ ((192 + q) / 128 = 0) := by omega
  have a2 : (192 + q) / 32 = 6 := by omega
  have hr0 : rd ((192 + q) :: (128 + r) :: t) 0 = 192 + q := rfl
  have hr1 : rd ((192 + q) :: (128 + r) :: t) 1 = 128 + r := rfl
  unfold utf8_to_32
  simp only [hr0, hr1, lead_1_iff _ h0, lead_2_iff _ h0, or2]
  simp [a1, a2]
  omega

theorem dec_enc_3 (q r1 r2 u : Nat) (t : List Nat) (hq : q < 16) (h1 : r1 < 64)
    (h2 : r2 < 64) :
    utf8_to_32 ((224 + q) :: (128 + r1) :: (128 + r2) :: t) 3 u
      = ((q * 64 + r1) * 64 + r2, 3) := by
  have h0 : 224 + q < 256 := by omega
  have a1 : ¬ ((224 + q) / 128 = 0) := by omega
  have a2 : ¬ ((224 + q) / 32 = 6) := by omega
  have a3 : (224 + q) / 16 = 14 := by omega
  have hr0 : rd ((224 + q) :: (128 + r1) :: (128 + r2) :: t) 0 = 224 + q := rfl
  have hr1 : rd ((224 + q) :: (128 + r1) :: (128 + r2) :: t) 1 = 128 + r1 := rfl
  have hr2 : rd ((224 + q) :: (128 + r1) :: (128 + r2) :: t) 2 = 128 + r2 := rfl
  unfold utf8_to_32
  simp only [hr0, hr1, hr2, lead_1_iff _ h0, lead_2_iff _ h0, lead_3_iff _ h0, or3]
  simp [a1, a2, a3]
  omega

theorem dec_enc_4 (q r1 r2 r3 u : Nat) (t : List Nat) (hq : q < 8) (h1 : r1 < 64)
    (h2 : r2 < 64) (h3 : r3 < 64) :
    utf8_to_32 ((240 + q) :: (128 + r1) :: (128 + r2) :: (128 + r3) :: t) 4 u
      = (((q * 64 + r1) * 64 + r2) * 64 + r3, 4) := by
  have h0 : 240 + q < 256 := by omega
  have a1 : ¬ ((240 + q) / 128 = 0) := by omega
  have a2 : ¬ ((240 + q) / 32 = 6) := by omega
  have a3 : ¬ ((240 + q) / 16 = 14) := by omega
  have a4 : (240 + q) / 8 = 30 := by omega
  have hr0 : rd ((240 + q) :: (128 + r1) :: (128 + r2) :: (128 + r3) :: t) 0 = 240 + q := rfl
  have hr1 : rd ((240 + q) :: (128 + r1) :: (128 + r2) :: (128 + r3) :: t) 1 = 128 + r1 := rfl
  have hr2 : rd ((240 + q) :: (128 + r1) :: (128 + r2) :: (128 + r3) :: t) 2 = 128 + r2 := rfl
  have hr3 : rd ((240 + q) :: (128 + r1) :: (128 + r2) :: (128 + r3) :: t) 3 = 128 + r3 := rfl
  unfold utf8_to_32
  simp only [hr0, hr1, hr2, hr3, lead_1_iff _ h0, lead_2_iff _ h0, lead_3_iff _ h0,
    lead_4_iff _ h0, or4]
  simp [a1, a2, a3, a4]
  omega

theorem enc_cont_nat (r : Nat) (h : r < 64) : (0x80 ||| r) % 256 = 128 + r :=
  enc_cont ⟨r, h⟩

/-- The stores of the encoder, in arithmetic form. -/
theorem utf32_to_8_eq (cp a b c d : Nat) (hcp : cp ≤ 0x10FFFF) :
    utf32_to_8 cp [a, b, c, d] 4 =
      if cp ≤ 0x7F then (1, [cp, b, c, d])
      else if cp ≤ 0x7FF then (2, [192 + cp / 64, 128 + cp % 64, c, d])
      else if cp ≤ 0xFFFF then
        (3, [224 + cp / 4096, 128 + cp / 64 % 64, 128 + cp % 64, d])
      else (4, [240 + cp / 262144, 128 + cp / 4096 % 64, 128 + cp / 64 % 64,
                128 + cp % 64]) := by
  have m := Nat.mod_lt cp (show 64 > 0 by norm_num)
  have m1 := Nat.mod_lt (cp / 64) (show 64 > 0 by norm_num)
  have m2 := Nat.mod_lt (cp / 4096) (show 64 > 0 by norm_num)
  have e6 : cp >>> 6 = cp / 64 := Nat.shiftRight_eq_div_pow cp 6
  have e12 : cp >>> 12 = cp / 4096 := Nat.shiftRight_eq_div_pow cp 12
  have e18 : cp >>> 18 = cp / 262144 := Nat.shiftRight_eq_div_pow cp 18
  unfold utf32_to_8
  simp only [e6, e12, e18, and_63, enc_cont_nat _ m, enc_cont_nat _ m1, enc_cont_nat _ m2]
  by_cases h1 : cp ≤ 0x7F
  · have hb : cp % 256 = cp := Nat.mod_eq_of_lt (by omega)
    simp [h1, hb]
  by_cases h2 : cp ≤ 0x7FF
  · have := enc_lead_2 ⟨cp / 64, by omega⟩
    simp only [Fin.val_mk] at this
    simp [h1, h2, this]
  by_cases h3 : cp ≤ 0xFFFF
  · have := enc_lead_3 ⟨cp / 4096, by omega⟩
    simp only [Fin.val_mk] at this
    simp [h1, h2, h3, this]
  · have := enc_lead_4 ⟨cp / 262144, by omega⟩
    simp only [Fin.val_mk] at this
    simp [h1, h2, h3, hcp, this]

/-- C1. Round trip: a codepoint `cp <= 0x10FFFF` encoded by `utf32_to_8` into a
4-byte buffer gives a length `n` in `1..4`, and `utf8_to_32` on the written
buffer with `max_len = n` returns `cp` and sets `used = n`. -/
theorem utf8_round_trip (cp : Nat) (buf : List Nat) (used0 : Nat)
    (hcp : cp ≤ 0x10FFFF) (hbuf : buf.length = 4) :
    1 ≤ (utf32_to_8 cp buf 4).1 ∧ (utf32_to_8 cp buf 4).1 ≤ 4 ∧
    utf8_to_32 (utf32_to_8 cp buf 4).2 (utf32_to_8 cp buf 4).1 used0
      = (cp, (utf32_to_8 cp buf 4).1) := by
  obtain ⟨a, b, c, d, rfl⟩ : ∃ a b c d, buf = [a, b, c, d] := by
    match buf, hbuf with
    | [a, b, c, d], _ => exact ⟨a, b, c, d, rfl⟩
  rw [utf32_to_8_eq cp a b c d hcp]
  by_cases h1 : cp ≤ 0x7F
  · have hl := (lead_1_iff cp (by omega)).2 (by omega)
    simp [h1, utf8_to_32, rd, hl, and_127]
    omega
  by_cases h2 : cp ≤ 0x7FF
  · simp only [h1, h2, if_true, if_false]
    rw [dec_enc_2 _ _ _ _ (by omega) (Nat.mod_lt _ (by norm_num))]
    refine ⟨by norm_num, by norm_num, ?_⟩
    congr 1; omega
  by_cases h3 : cp ≤ 0xFFFF
  · simp only [h1, h2, h3, if_true, if_false]
    rw [dec_enc_3 _ _ _ _ _ (by omega) (Nat.mod_lt _ (by norm_num))
      (Nat.mod_lt _ (by norm_num))]
    refine ⟨by norm_num, by norm_num, ?_⟩
    congr 1; omega
  · simp only [h1, h2, h3, if_true, if_false]
    rw [dec_enc_4 _ _ _ _ _ _ (by omega) (Nat.mod_lt _ (by norm_num))
      (Nat.mod_lt _ (by norm_num)) (Nat.mod_lt _ (by norm_num))]
    refine ⟨by norm_num, by norm_num, ?_⟩
    congr 1; omega

/-- Witness of C1 at the largest codepoint `0x10FFFF` (a 4-byte encoding). -/
theorem utf8_round_trip_witness :
    (0x10FFFF ≤ 0x10FFFF ∧ [0, 0, 0, 0].length = 4) ∧
    (1 ≤ (utf32_to_8 0x10FFFF [0, 0, 0, 0] 4).1 ∧ (utf32_to_8 0x10FFFF [0, 0, 0, 0] 4).1 ≤ 4 ∧
      utf8_to_32 (utf32_to_8 0x10FFFF [0, 0, 0, 0] 4).2 (utf32_to_8 0x10FFFF [0, 0, 0, 0] 4).1 0
        = (0x10FFFF, (utf32_to_8 0x10FFFF [0, 0, 0, 0] 4).1)) :=
  ⟨⟨by decide, by decide⟩, utf8_round_trip 0x10FFFF [0, 0, 0, 0] 0 (by decide) (by decide)⟩

/-- The eight boundary codepoints of the specification, evaluated. -/
theorem utf8_round_trip_boundaries :
    ∀ cp ∈ [0x00, 0x7F, 0x80, 0x7FF, 0x800, 0xFFFF, 0x10000, 0x10FFFF],
      utf8_to_32 (utf32_to_8 cp [0, 0, 0, 0] 4).2 (utf32_to_8 cp [0, 0, 0, 0] 4).1 0
        = (cp, (utf32_to_8 cp [0, 0, 0, 0] 4).1) := by
  decide

/-! ### C10 : the decoder against its reference definition -/

/-- C10. With the consumed counter initially 0, `utf8_to_32` agrees with the
reference decoder: it returns `(0, 0)` exactly when `max_len = 0`, the leading
byte matches none of the four patterns, or `max_len` is smaller than the
announced length; otherwise consumed is the announced length and the codepoint
is the leading payload followed by the low 6 bits of each following byte,
whatever their high two bits are. -/
theorem utf8_to_32_refines_ref (buf : List Nat) (max_len : Nat)
    (hb : ∀ b ∈ buf, b < 256) (hsz : max_len ≤ buf.length) :
    utf8_to_32 buf max_len 0 = utf8_decode_ref buf max_len ∧
    (utf8_to_32 buf max_len 0 = (0, 0) ↔
      (max_len = 0 ∨ announced_len (rd buf 0) = 0 ∨ max_len < announced_len (rd buf 0))) ∧
    (¬ (max_len = 0 ∨ announced_len (rd buf 0) = 0 ∨ max_len < announced_len (rd buf 0)) →
      utf8_to_32 buf max_len 0 =
        (((buf.drop 1).take (announced_len (rd buf 0) - 1)).foldl
            (fun acc c => acc * 64 + c % 64) (lead_payload (rd buf 0)),
          announced_len (rd buf 0))) := by
  rw [utf8_to_32_eq buf max_len 0 hb hsz]
  refine ⟨by unfold utf8_decode_ref; rfl, ?_, ?_⟩
  · by_cases h : max_len = 0 ∨ announced_len (rd buf 0) = 0 ∨ max_len < announced_len (rd buf 0)
    · simp only [h, if_true]
    · simp only [h, if_false, iff_false]
      intro hc
      have := congrArg Prod.snd hc
      simp only at this
      exact h (Or.inr (Or.inl this))
  · intro h
    simp only [h, if_false]

/-- Witness of C10: the lenient 2-byte decode of `0xC3 0x29`, whose second byte
is not a continuation byte (`0x29 = 00101001`). -/
theorem utf8_to_32_refines_ref_witness :
    utf8_to_32 [0xC3, 0x29] 2 0 = utf8_decode_ref [0xC3, 0x29] 2 ∧
    utf8_to_32 [0xC3, 0x29] 2 0 = (0xE9, 2) :=
  ⟨(utf8_to_32_refines_ref [0xC3, 0x29] 2 (by decide) (by decide)).1, by decide⟩

/-! ### C7 : event queue saturation -/

theorem push_written_full (pf : Pf) (e : Event) (h : 4 ≤ pf.events_count) :
    (push_written pf e).events_count = pf.events_count ∧
    (push_written pf e).events_data = pf.events_data := by
  simp [push_written, push_event, event_store, h]

theorem push_written_room (pf : Pf) (e : Event) (h : pf.events_count < 4) :
    (push_written pf e).events_count = pf.events_count + 1 ∧
    (push_written pf e).events_data = pf.events_data.set pf.events_count e := by
  have h2 : ¬ (4 ≤ pf.events_count) := by omega
  simp [push_written, push_event, event_store, h2, List.set_set]

theorem take_succ_set (l : List Event) (c : Nat) (e : Event) (h : c < l.length) :
    (l.set c e).take (c + 1) = l.take c ++ [e] := by
  induction l generalizing c with
  | nil => simp at h
  | cons a t ih =>
    cases c with
    | zero => simp
    | succ c =>
      simp only [List.length_cons, Nat.add_lt_add_iff_right] at h
      simp [ih c h]

theorem pushes_inv (es : List Event) (pf : Pf)
    (hc : pf.events_count ≤ 4) (hl : pf.events_data.length = 4) :
    (es.foldl push_written pf).events_count = min (pf.events_count + es.length) 4 ∧
    (es.foldl push_written pf).events_data.length = 4 ∧
    (es.foldl push_written pf).events_data.take (min (pf.events_count + es.length) 4)
      = pf.events_data.take pf.events_count ++ es.take (4 - pf.events_count) := by
  induction es generalizing pf with
  | nil => simp [Nat.min_eq_left hc, hl]
  | cons e t ih =>
    simp only [List.foldl_cons, List.length_cons]
    by_cases hfull : pf.events_count < 4
    · obtain ⟨h1, h2⟩ := push_written_room pf e hfull
      have hl2 : (push_written pf e).events_data.length = 4 := by rw [h2]; simpa using hl
      obtain ⟨i1, i2, i3⟩ := ih (push_written pf e) (by omega) hl2
      refine ⟨by rw [i1, h1]; congr 1; omega, i2, ?_⟩
      have e1 : pf.events_count + (t.length + 1) = (push_written pf e).events_count + t.length := by
        rw [h1]; omega
      rw [e1, i3, h1, h2, take_succ_set _ _ _ (by omega)]
      have e2 : 4 - pf.events_count = (4 - (pf.events_count + 1)) + 1 := by omega
      rw [e2, List.take_succ_cons]
      simp
    · have hge : 4 ≤ pf.events_count := by omega
      obtain ⟨h1, h2⟩ := push_written_full pf e hge
      have hl2 : (push_written pf e).events_data.length = 4 := by rw [h2]; exact hl
      obtain ⟨i1, i2, i3⟩ := ih (push_written pf e) (by omega) hl2
      refine ⟨by rw [i1, h1]; omega, i2, ?_⟩
      have e1 : min (pf.events_count + (t.length + 1)) 4
          = min ((push_written pf e).events_count + t.length) 4 := by rw [h1]; omega
      rw [e1, i3, h1, h2]
      have e2 : 4 - pf.events_count = 0 := by omega
      simp [e2]

theorem drain_all (k : Nat) (fuel : Nat) (pf : Pf) (hf : k < fuel)
    (hc : pf.events_count = k) (hl : k ≤ pf.events_data.length) :
    drain_events fuel pf
      = some ((pf.events_data.take k).reverse, { pf with events_count := 0 }) := by
  induction k generalizing fuel pf with
  | zero =>
    obtain ⟨f, rfl⟩ : ∃ f, fuel = f + 1 := ⟨fuel - 1, by omega⟩
    cases pf
    simp only at hc
    subst hc
    simp [drain_events, get_event]
  | succ k ih =>
    obtain ⟨f, rfl⟩ : ∃ f, fuel = f + 1 := ⟨fuel - 1, by omega⟩
    have hstep : get_event pf = (some (pf.events_data.getD k Event.zero),
        { pf with events_count := k }) := by
      simp [get_event, hc]
    rw [drain_events, hstep]
    simp only
    rw [ih f { pf with events_count := k } (by omega) rfl (by simp; omega)]
    simp only [Option.some.injEq, Prod.mk.injEq, and_true]
    rw [List.take_succ, List.reverse_append]
    have : k < pf.events_data.length := by omega
    simp [List.getD_eq_getElem, this, List.getElem?_eq_getElem]

/-- C7. After pushing the events `es` one by one onto an empty queue (each
written through the pointer `push_event` returned), `events.count` is
`min n 4`, the slots below it hold the first `min n 4` events pushed, and the
`get_event` loop returns exactly those `min n 4` events (last pushed first)
before it gets null. -/
theorem event_queue_saturation (pf : Pf) (es : List Event)
    (hc : pf.events_count = 0) (hl : pf.events_data.length = 4) :
    (es.foldl push_written pf).events_count = min es.length 4 ∧
    (∀ i, i < min es.length 4 →
      (es.foldl push_written pf).events_data.getD i Event.zero = es.getD i Event.zero) ∧
    drain_events 5 (es.foldl push_written pf)
      = some ((es.take 4).reverse, { es.foldl push_written pf with events_count := 0 }) ∧
    ((es.take 4).reverse).length = min es.length 4 ∧
    (get_event { es.foldl push_written pf with events_count := 0 }).1 = none := by
  obtain ⟨i1, i2, i3⟩ := pushes_inv es pf (by omega) hl
  rw [hc] at i1 i3
  simp only [Nat.zero_add, List.take_zero, List.nil_append, Nat.sub_zero] at i1 i3
  refine ⟨i1, ?_, ?_, ?_, ?_⟩
  · intro i hi
    have h4 : i < 4 := by omega
    have hn : i < es.length := by omega
    have e1 : ((es.foldl push_written pf).events_data.take (min es.length 4))[i]? =
        (es.take 4)[i]? := by rw [i3]
    rw [List.getElem?_take_of_lt hi, List.getElem?_take_of_lt h4] at e1
    simp [List.getD_eq_getElem?_getD, e1]
  · rw [drain_all (min es.length 4) 5 _ (by omega) i1 (by omega), i3]
  · simp [Nat.min_comm]
  · simp [get_event]

/-- Witness of C7: five pushes onto an empty queue leave four retrievable
events. -/
theorem event_queue_saturation_witness :
    drain_events 5 ([⟨.EVENT_CHAR, 1⟩, ⟨.EVENT_CHAR, 2⟩, ⟨.EVENT_CHAR, 3⟩, ⟨.EVENT_CHAR, 4⟩,
        ⟨.EVENT_CHAR, 5⟩].foldl push_written ⟨false, List.replicate 4 Event.zero, 0, Event.zero⟩)
      = some ([⟨.EVENT_CHAR, 4⟩, ⟨.EVENT_CHAR, 3⟩, ⟨.EVENT_CHAR, 2⟩, ⟨.EVENT_CHAR, 1⟩],
          ⟨false, [⟨.EVENT_CHAR, 1⟩, ⟨.EVENT_CHAR, 2⟩, ⟨.EVENT_CHAR, 3⟩, ⟨.EVENT_CHAR, 4⟩], 0,
            ⟨.EVENT_CHAR, 5⟩⟩) :=
  (event_queue_saturation ⟨false, List.replicate 4 Event.zero, 0, Event.zero⟩
    [⟨.EVENT_CHAR, 1⟩, ⟨.EVENT_CHAR, 2⟩, ⟨.EVENT_CHAR, 3⟩, ⟨.EVENT_CHAR, 4⟩, ⟨.EVENT_CHAR, 5⟩]
    rfl rfl).2.2.1.trans (by decide)

/-! ### C6 : escape-sequence classification -/

/-- C6. For a chunk of at least 3 bytes that begins `0x1B 0x5B`, the decoder
makes exactly one push, of a Key event, when byte 2 is `0x41`, `0x42`, `0x43` or
`0x44` (Up, Down, Right, Left), and makes no push and changes nothing for any
other byte 2. -/
theorem escape_classification (fuel : Nat) (input : List Nat) (bytes : Nat) (pf : Pf)
    (_hb : 3 ≤ bytes) (_hlen : bytes ≤ input.length)
    (h0 : rd input 0 = 0x1b) (h1 : rd input 1 = 0x5b) :
    (rd input 2 = 0x41 →
      decode_input fuel input bytes pf = some (push_written pf ⟨.EVENT_KEY, Key.KEY_UP.val⟩)) ∧
    (rd input 2 = 0x42 →
      decode_input fuel input bytes pf = some (push_written pf ⟨.EVENT_KEY, Key.KEY_DOWN.val⟩)) ∧
    (rd input 2 = 0x43 →
      decode_input fuel input bytes pf = some (push_written pf ⟨.EVENT_KEY, Key.KEY_RIGHT.val⟩)) ∧
    (rd input 2 = 0x44 →
      decode_input fuel input bytes pf = some (push_written pf ⟨.EVENT_KEY, Key.KEY_LEFT.val⟩)) ∧
    (rd input 2 ≠ 0x41 → rd input 2 ≠ 0x42 → rd input 2 ≠ 0x43 → rd input 2 ≠ 0x44 →
      decode_input fuel input bytes pf = some pf) := by
  refine ⟨?_, ?_, ?_, ?_, ?_⟩
  · intro h2
    simp [decode_input, h0, h1, h2, key_of_byte, push_written]
  · intro h2
    simp [decode_input, h0, h1, h2, key_of_byte, push_written]
  · intro h2
    simp [decode_input, h0, h1, h2, key_of_byte, push_written]
  · intro h2
    simp [decode_input, h0, h1, h2, key_of_byte, push_written]
  · intro a b c d
    simp [decode_input, h0, h1, key_of_byte, a, b, c, d]

/-- Witness of C6: the chunk `0x1B 0x5B 0x41` read into a zeroed `input[16]`
with an empty queue gives exactly one retrievable event, Key(Up). -/
theorem escape_classification_witness :
    (decode_input 0 (0x1b :: 0x5b :: 0x41 :: List.replicate 13 0) 3
        ⟨false, List.replicate 4 Event.zero, 0, Event.zero⟩).bind (drain_events 5)
      = some ([⟨.EVENT_KEY, 1⟩],
          ⟨false, ⟨.EVENT_KEY, 1⟩ :: List.replicate 3 Event.zero, 0, Event.zero⟩) := by
  rw [(escape_classification 0 (0x1b :: 0x5b :: 0x41 :: List.replicate 13 0) 3
    ⟨false, List.replicate 4 Event.zero, 0, Event.zero⟩ (by decide) (by decide) rfl rfl).1 rfl]
  decide

/-! ### C5 : the text branch of the input decoder -/

/-- Length stored by a successful decode: it depends on the leading byte only. -/
theorem utf8_to_32_used (input : List Nat) (m u : Nat) :
    (utf8_to_32 input m u).2 = u ∨
      ((utf8_to_32 input m u).2 ≠ 0 ∧ ∀ m2 u2, (utf8_to_32 input m2 u2).2 = u2 ∨
        (utf8_to_32 input m2 u2).2 = (utf8_to_32 input m u).2) := by
  unfold utf8_to_32
  split_ifs <;> simp <;> (right; intro m2 u2; split_ifs <;> simp)

/-- Once the consumed counter is stuck below `bytes`, the loop never ends. -/
theorem text_loop_stuck (fuel : Nat) (input : List Nat) (bytes u : Nat) (pf : Pf)
    (hu : u < bytes) (hfix : (utf8_to_32 input (bytes - u) u).2 = u) :
    text_loop fuel input bytes u pf = none := by
  induction fuel generalizing pf with
  | zero => rfl
  | succ f ih =>
    rw [text_loop, if_pos hu, hfix]
    exact ih _

/-- The text branch terminates only on a chunk that is one codepoint: when the
first decode consumes fewer bytes than the chunk holds (a second codepoint
follows, or the decode fails), every later iteration decodes `input[0]` again
and the loop does not terminate, whatever the fuel. -/
theorem text_loop_diverges (fuel : Nat) (input : List Nat) (bytes : Nat) (pf : Pf)
    (h : (utf8_to_32 input bytes 0).2 < bytes) :
    text_loop fuel input bytes 0 pf = none := by
  cases fuel with
  | zero => rfl
  | succ f =>
    have hb : 0 < bytes := by omega
    rw [text_loop, if_pos hb]
    simp only [Nat.sub_zero]
    apply text_loop_stuck _ _ _ _ _ h
    rcases utf8_to_32_used input bytes 0 with h0 | ⟨_, h1⟩
    · rw [h0]; simpa using h0
    · rcases h1 (bytes - (utf8_to_32 input bytes 0).2) (utf8_to_32 input bytes 0).2 with h2 | h2
      · exact h2
      · exact h2

/-- The text branch on a chunk that is exactly one codepoint: one Character
event is pushed and the loop ends. -/
theorem text_loop_single (fuel : Nat) (input : List Nat) (bytes : Nat) (pf : Pf)
    (hb : 0 < bytes) (h : (utf8_to_32 input bytes 0).2 = bytes) :
    text_loop (fuel + 2) input bytes 0 pf
      = some (push_written pf ⟨.EVENT_CHAR, (utf8_to_32 input bytes 0).1⟩) := by
  rw [text_loop, if_pos hb]
  simp only [Nat.sub_zero]
  rw [h, text_loop, if_neg (by omega)]
  rfl

/-- C5 (the code at the failing input). A two-byte chunk holding `a` and `b`:
the text branch of the decoder does not terminate, whatever the fuel, because
`utf8_to_32(input, bytes-used, &used)` always decodes `input[0]` and stores the
length 1 in `used`, which stays below `bytes = 2`. -/
theorem text_branch_two_ascii_diverges (fuel : Nat) (t : List Nat) (pf : Pf) :
    decode_input fuel (0x61 :: 0x62 :: t) 2 pf = none := by
  have h : decode_input fuel (0x61 :: 0x62 :: t) 2 pf
      = text_loop fuel (0x61 :: 0x62 :: t) 2 0 pf := by
    simp [decode_input, rd]
  rw [h]
  exact text_loop_diverges fuel _ 2 pf
    (by simp [utf8_to_32, rd]; decide)

/-- The spec's example of C5: the chunk `0xC3 0xA9` gives exactly one
Character(0xE9) event. -/
theorem text_branch_e_acute (fuel : Nat) (t : List Nat) (pf : Pf) :
    decode_input (fuel + 2) (0xC3 :: 0xA9 :: t) 2 pf
      = some (push_written pf ⟨.EVENT_CHAR, 0xE9⟩) := by
  have h : decode_input (fuel + 2) (0xC3 :: 0xA9 :: t) 2 pf
      = text_loop (fuel + 2) (0xC3 :: 0xA9 :: t) 2 0 pf := by
    simp [decode_input, rd]
  have hd : utf8_to_32 (0xC3 :: 0xA9 :: t) 2 0 = (0xE9, 2) := by
    simp [utf8_to_32, rd]; decide
  rw [h, text_loop_single fuel _ 2 pf (by decide) (by rw [hd]), hd]

/-! ### C8 : the growable sequence keeps its data -/

theorem wrap64_eq (n : Nat) (h : n < 18446744073709551616) : wrap64 n = n :=
  Nat.mod_eq_of_lt h

/-- A fitting allocation succeeds at the current `mem_used`, advances it by the
size and leaves every byte below the old `mem_used` as it was. -/
theorem mem_alloc_zeroed_fits (a : Arena) (sz : Nat) (h : a.mem_used + sz ≤ MEM_CAPACITY) :
    ∃ a1, mem_alloc_zeroed a sz = some (a.mem_used, a1) ∧
      a1.mem_used = a.mem_used + sz ∧
      ∀ i, i < a.mem_used → a1.mem_buffer i = a.mem_buffer i := by
  have hc : MEM_CAPACITY = 655360 := rfl
  have hw : wrap64 (a.mem_used + sz) = a.mem_used + sz := wrap64_eq _ (by omega)
  unfold mem_alloc_zeroed
  rw [hw, if_pos h]
  by_cases h1 : a.mem_used + sz > a.mem_used_max
  · rw [if_pos h1]
    exact ⟨_, rfl, rfl, fun _ _ => rfl⟩
  · rw [if_neg h1]
    by_cases h2 : a.mem_used + sz < a.mem_used_max
    · rw [if_pos h2]
      refine ⟨_, rfl, rfl, ?_⟩
      intro i hi
      have : ¬ (a.mem_used ≤ i ∧ i < a.mem_used + (a.mem_used_max - (a.mem_used + sz))) := by
        omega
      simp [memset_zero, this]
    · rw [if_neg h2]
      exact ⟨_, rfl, rfl, fun _ _ => rfl⟩

theorem load32_store32_same (m : Nat → Nat) (off v : Nat) (hv : v < 4294967296) :
    load32 (store32 m off v) off = v := by
  simp [load32, store32]
  omega

theorem load32_store32_below (m : Nat → Nat) (off off2 v : Nat) (h : off2 + 4 ≤ off) :
    load32 (store32 m off v) off2 = load32 m off2 := by
  have h0 : off2 ≠ off := by omega
  have h1 : off2 ≠ off + 1 := by omega
  have h2 : off2 ≠ off + 2 := by omega
  have h3 : off2 ≠ off + 3 := by omega
  have h4 : off2 + 1 ≠ off := by omega
  have h5 : off2 + 1 ≠ off + 1 := by omega
  have h6 : off2 + 1 ≠ off + 2 := by omega
  have h7 : off2 + 1 ≠ off + 3 := by omega
  have h8 : off2 + 2 ≠ off := by omega
  have h9 : off2 + 2 ≠ off + 1 := by omega
  have h10 : off2 + 2 ≠ off + 2 := by omega
  have h11 : off2 + 2 ≠ off + 3 := by omega
  have h12 : off2 + 3 ≠ off := by omega
  have h13 : off2 + 3 ≠ off + 1 := by omega
  have h14 : off2 + 3 ≠ off + 2 := by omega
  have h15 : off2 + 3 ≠ off + 3 := by omega
  simp only [load32, store32, h0, h1, h2, h3, h4, h5, h6, h7, h8, h9, h10, h11, h12, h13,
    h14, h15, if_false]

theorem load32_congr (m m2 : Nat → Nat) (off bound : Nat)
    (h : ∀ i, i < bound → m2 i = m i) (hb : off + 4 ≤ bound) :
    load32 m2 off = load32 m off := by
  simp only [load32]
  rw [h off (by omega), h (off + 1) (by omega), h (off + 2) (by omega), h (off + 3) (by omega)]

theorem map_load_congr (m m2 : Nat → Nat) (p n bound : Nat)
    (h : ∀ i, i < bound → m2 i = m i) (hb : p + 4 * n ≤ bound) :
    (List.range n).map (fun i => load32 m2 (p + 4 * i))
      = (List.range n).map (fun i => load32 m (p + 4 * i)) := by
  apply List.map_congr_left
  intro i hi
  have := List.mem_range.1 hi
  exact load32_congr m m2 _ bound h (by omega)

theorem append_store_step (p : Nat) (a : Arena) (r : Region) (done : List Nat) (v : Nat)
    (inv : SeqInv p a r done) (hv : v < 4294967296)
    (hfit : p + 8 * (done.length + 1) ≤ MEM_CAPACITY) :
    ∃ a1 r1, append_store a r v = some (a1, r1) ∧ SeqInv p a1 r1 (done ++ [v]) := by
  obtain ⟨hdata, hcount, hpos, hcap, hgrow, htop, hval⟩ := inv
  have hc : MEM_CAPACITY = 655360 := rfl
  have hw1 : wrap64 (r.count + 1) = r.count + 1 := wrap64_eq _ (by omega)
  by_cases hroom : r.count < r.capacity
  · have hens : array_ensure a r 1 = some (a, r) := by
      unfold array_ensure
      rw [hw1, if_neg (by omega)]
    refine ⟨{ a with mem_buffer := store32 a.mem_buffer (p + 4 * r.count) v },
      { r with count := r.count + 1 }, ?_, ?_⟩
    · simp [append_store, array_append, array_append_many, hens, hdata, hw1]
    · refine ⟨hdata, by simp [hcount], by simp, by simp; omega, by simp; omega, htop, ?_⟩
      simp only [List.range_succ, List.map_append, List.map_cons, List.map_nil]
      rw [load32_store32_same _ _ _ hv, ← hval]
      congr 1
      apply List.map_congr_left
      intro i hi
      have := List.mem_range.1 hi
      exact load32_store32_below _ _ _ _ (by omega)
  · have hceq : r.capacity = r.count := by omega
    have hmax : max r.capacity 1 = r.capacity := by omega
    have hw2 : wrap64 (r.capacity * 4) = r.capacity * 4 := wrap64_eq _ (by omega)
    have hw3 : wrap64 (r.capacity + r.capacity) = r.capacity + r.capacity :=
      wrap64_eq _ (by omega)
    have hw4 : wrap64 ((r.capacity + r.capacity) * 4) = (r.capacity + r.capacity) * 4 :=
      wrap64_eq _ (by omega)
    have hw5 : wrap64 (a.mem_used + 18446744073709551616 - r.capacity * 4) = p := by
      unfold wrap64; omega
    obtain ⟨a1, ha1, hu1, hm1⟩ := mem_alloc_zeroed_fits a
      ((r.capacity + r.capacity) * 4 - r.capacity * 4) (by omega)
    have hens : array_ensure a r 1
        = some (a1, { r with capacity := r.capacity + r.capacity, data := some p }) := by
      unfold array_ensure
      rw [hw1, if_pos (by omega), hmax, hw2, hw3, hw4, hdata]
      unfold mem_realloc_zeroed
      simp only
      rw [if_neg (by omega), hw5, if_pos rfl, ha1]
    refine ⟨{ a1 with mem_buffer := store32 a1.mem_buffer (p + 4 * r.count) v },
      { r with capacity := r.capacity + r.capacity, data := some p, count := r.count + 1 },
      ?_, ?_⟩
    · simp [append_store, array_append, array_append_many, hens, hw1]
    · refine ⟨rfl, by simp [hcount], by simp, by simp; omega, by simp; omega,
        by simp; omega, ?_⟩
      simp only [List.range_succ, List.map_append, List.map_cons, List.map_nil]
      rw [load32_store32_same _ _ _ hv, ← hval]
      congr 1
      rw [← map_load_congr a.mem_buffer a1.mem_buffer p r.count a.mem_used hm1 (by omega)]
      apply List.map_congr_left
      intro i hi
      have := List.mem_range.1 hi
      exact load32_store32_below _ _ _ _ (by omega)

theorem append_all_inv (rest : List Nat) (p : Nat) (a : Arena) (r : Region) (done : List Nat)
    (inv : SeqInv p a r done) (hv : ∀ v ∈ rest, v < 4294967296)
    (hfit : p + 8 * (done.length + rest.length) ≤ MEM_CAPACITY) :
    ∃ a2 r2, append_all rest a r = some (a2, r2) ∧ SeqInv p a2 r2 (done ++ rest) := by
  induction rest generalizing a r done with
  | nil => exact ⟨a, r, rfl, by simpa using inv⟩
  | cons v t ih =>
    simp only [List.length_cons] at hfit
    obtain ⟨a1, r1, h1, inv1⟩ := append_store_step p a r done v inv
      (hv v (List.mem_cons_self _ _)) (by omega)
    obtain ⟨a2, r2, h2, inv2⟩ := ih a1 r1 (done ++ [v]) inv1
      (fun w hw => hv w (List.mem_cons_of_mem _ hw)) (by simp; omega)
    refine ⟨a2, r2, ?_, by simpa using inv2⟩
    simp [append_all, h1, h2]

theorem append_store_first (a : Arena) (v : Nat) (hv : v < 4294967296)
    (hfit : a.mem_used + 4 ≤ MEM_CAPACITY) :
    ∃ a1 r1, append_store a Region.empty v = some (a1, r1) ∧ SeqInv a.mem_used a1 r1 [v] := by
  obtain ⟨a1, ha1, hu1, _⟩ := mem_alloc_zeroed_fits a 4 hfit
  have hens : array_ensure a ⟨none, 0, 0⟩ 1 = some (a1, ⟨some a.mem_used, 0, 1⟩) := by
    simp [array_ensure, wrap64, mem_realloc_zeroed, ha1]
  refine ⟨{ a1 with mem_buffer := store32 a1.mem_buffer a.mem_used v },
    ⟨some a.mem_used, 1, 1⟩, ?_, ?_⟩
  · simp [append_store, array_append, array_append_many, hens, Region.empty, wrap64]
  · refine ⟨rfl, rfl, by simp, by simp, by simp, by simp [hu1], ?_⟩
    simp [List.range_succ, load32_store32_same _ _ _ hv]

/-- C8. Appending the values `vs` one at a time with `array_append` (backed by
`mem_realloc_zeroed`, the arena having room for `8 * N` more bytes) to an
initially empty sequence of `uint32_t` succeeds, gives `count = N`, and
`data[i] = v_i` for every `i < N`, across every growth of the capacity. -/
theorem growable_sequence_keeps_data (a : Arena) (vs : List Nat)
    (hv : ∀ v ∈ vs, v < 4294967296)
    (hfit : a.mem_used + 8 * vs.length ≤ MEM_CAPACITY) :
    ∃ a2 r2, append_all vs a Region.empty = some (a2, r2) ∧
      r2.count = vs.length ∧ region_data a2 r2 = vs := by
  cases vs with
  | nil => exact ⟨a, Region.empty, rfl, rfl, rfl⟩
  | cons v t =>
    simp only [List.length_cons] at hfit
    obtain ⟨a1, r1, h1, inv1⟩ := append_store_first a v (hv v (List.mem_cons_self _ _))
      (by omega)
    obtain ⟨a2, r2, h2, inv2⟩ := append_all_inv t a.mem_used a1 r1 [v] inv1
      (fun w hw => hv w (List.mem_cons_of_mem _ hw)) (by simp; omega)
    refine ⟨a2, r2, by simp [append_all, h1, h2], by simpa using inv2.hcount, ?_⟩
    simp only [region_data, inv2.hdata]
    simpa using inv2.hval

/-- Witness of C8: five values, whose appends grow the capacity 1, 2, 4, 8. -/
theorem growable_sequence_keeps_data_witness :
    ∃ a2 r2, append_all [10, 20, 30, 40, 50] Arena.init Region.empty = some (a2, r2) ∧
      r2.count = [10, 20, 30, 40, 50].length ∧ region_data a2 r2 = [10, 20, 30, 40, 50] :=
  growable_sequence_keeps_data Arena.init [10, 20, 30, 40, 50] (by decide) (by decide)

/-- The limit of C8: the data survives a growth because the Region owns the
topmost block of the arena. When another allocation is made between two
appends, the next growth takes a fresh block and does not copy: after
appending 7, allocating 4 bytes elsewhere and appending 9, the Region reads
`0, 9`. -/
theorem growth_after_other_alloc :
    ((append_store Arena.init Region.empty 7).bind (fun s1 =>
      (mem_alloc_zeroed s1.1 4).bind (fun s2 =>
        (append_store s2.2 s1.2 9).map (fun s3 => region_data s3.1 s3.2)))) = some [0, 9] := by
  decide

/-! ### C9 : the address returned by `mem_realloc_zeroed` -/

theorem append_store_room (p : Nat) (a : Arena) (r : Region) (done : List Nat) (v : Nat)
    (inv : RegInv p a r done) (hv : v < 4294967296) (hroom : r.count < r.capacity) :
    ∃ a1 r1, append_store a r v = some (a1, r1) ∧ RegInv p a1 r1 (done ++ [v]) ∧
      r1.count = r.count + 1 ∧ r1.capacity = r.capacity := by
  obtain ⟨hdata, hcount, hcapb, hval⟩ := inv
  have hc : MEM_CAPACITY = 655360 := rfl
  have hw1 : wrap64 (r.count + 1) = r.count + 1 := wrap64_eq _ (by omega)
  have hens : array_ensure a r 1 = some (a, r) := by
    unfold array_ensure
    rw [hw1, if_neg (by omega)]
  refine ⟨{ a with mem_buffer := store32 a.mem_buffer (p + 4 * r.count) v },
    { r with count := r.count + 1 }, ?_, ?_, rfl, rfl⟩
  · simp [append_store, array_append, array_append_many, hens, hdata, hw1]
  · refine ⟨hdata, by simp [hcount], hcapb, ?_⟩
    simp only [List.range_succ, List.map_append, List.map_cons, List.map_nil]
    rw [load32_store32_same _ _ _ hv, ← hval]
    congr 1
    apply List.map_congr_left
    intro i hi
    have := List.mem_range.1 hi
    exact load32_store32_below _ _ _ _ (by omega)

theorem utf8_to_32_ascii (b : Nat) (t : List Nat) (m u : Nat) (hb : b < 128) (hm : 1 ≤ m) :
    utf8_to_32 (b :: t) m u = (b, 1) := by
  have hl := (lead_1_iff b (by omega)).2 (by omega)
  have h0 : rd (b :: t) 0 = b := rfl
  unfold utf8_to_32
  rw [if_neg (by omega), h0, if_pos hl, and_127, Nat.mod_eq_of_lt hb]

/-- The loop of the loader on ASCII bytes, with room for what is left to
append: it ends, keeps the block of the Region and appends `load_model`. -/
theorem load_loop_ascii (src : List Nat) (hascii : ∀ b ∈ src, b < 128) (p : Nat)
    (fuel pos : Nat) (prev_cr : Bool) (a : Arena) (r : Region) (done : List Nat)
    (inv : RegInv p a r done) (hpos : pos ≤ src.length) (hfuel : src.length - pos < fuel)
    (hroom : r.count + (if prev_cr then 1 else 0) + (src.length - pos) ≤ r.capacity) :
    ∃ a2 r2, load_loop fuel src src.length pos prev_cr a r = some (a2, r2) ∧
      RegInv p a2 r2 (done ++ load_model prev_cr (src.drop pos)) := by
  induction fuel generalizing pos prev_cr a r done with
  | zero => omega
  | succ f ih =>
    by_cases hlt : pos < src.length
    · obtain ⟨c, t, hct⟩ : ∃ c t, src.drop pos = c :: t := by
        cases hd : src.drop pos with
        | nil =>
          have := congrArg List.length hd
          simp at this
          omega
        | cons c t => exact ⟨c, t, rfl⟩
      have hcmem : c ∈ src := List.mem_of_mem_drop (by rw [hct]; exact List.mem_cons_self _ _)
      have hc128 := hascii c hcmem
      have hdrop : src.drop (pos + 1) = t := by
        rw [← List.drop_drop, hct]
        rfl
      have hdec := utf8_to_32_ascii c t (src.length - pos) 0 hc128 (by omega)
      rw [load_loop, if_pos hlt, hct, hdec]
      simp only
      by_cases hcr : c = 0x0D
      · rw [if_pos hcr]
        obtain ⟨a2, r2, h2, inv2⟩ := ih (pos + 1) true a r done inv (by omega) (by omega)
          (by simp only [if_true]; split_ifs at hroom <;> omega)
        refine ⟨a2, r2, h2, ?_⟩
        rw [hdrop] at inv2
        simpa [load_model, hcr] using inv2
      · rw [if_neg hcr]
        cases prev_cr with
        | true =>
          simp only [if_true] at hroom ⊢
          obtain ⟨a1, r1, h1, inv1, hc1, hk1⟩ := append_store_room p a r done 0x0A inv
            (by norm_num) (by omega)
          rw [h1]
          simp only
          by_cases hlf : c = 0x0A
          · rw [if_pos hlf]
            obtain ⟨a2, r2, h2, inv2⟩ := ih (pos + 1) false a1 r1 (done ++ [0x0A]) inv1
              (by omega) (by omega) (by simp; omega)
            refine ⟨a2, r2, h2, ?_⟩
            rw [hdrop] at inv2
            simpa [load_model, hcr, hlf] using inv2
          · rw [if_neg hlf]
            obtain ⟨a3, r3, h3, inv3, hc3, hk3⟩ := append_store_room p a1 r1 (done ++ [0x0A]) c
              inv1 (by omega) (by omega)
            rw [h3]
            simp only
            obtain ⟨a2, r2, h2, inv2⟩ := ih (pos + 1) false a3 r3 (done ++ [0x0A] ++ [c]) inv3
              (by omega) (by omega) (by simp; omega)
            refine ⟨a2, r2, h2, ?_⟩
            rw [hdrop] at inv2
            simpa [load_model, hcr, hlf] using inv2
        | false =>
          simp only [Bool.false_eq_true, if_false] at hroom ⊢
          obtain ⟨a3, r3, h3, inv3, hc3, hk3⟩ := append_store_room p a r done c inv
            (by omega) (by omega)
          rw [h3]
          simp only
          obtain ⟨a2, r2, h2, inv2⟩ := ih (pos + 1) false a3 r3 (done ++ [c]) inv3
            (by omega) (by omega) (by simp; omega)
          refine ⟨a2, r2, h2, ?_⟩
          rw [hdrop] at inv2
          simpa [load_model, hcr] using inv2
    · have hpe : pos = src.length := by omega
      rw [load_loop, if_neg hlt]
      refine ⟨a, r, rfl, ?_⟩
      rw [hpe, List.drop_length]
      simpa [load_model] using inv

/-- Loading an ASCII file into an empty Region, the arena having room for
4 bytes per input byte: the load ends and the Region holds `load_model`. -/
theorem load_ascii (src : List Nat) (a : Arena) (hascii : ∀ b ∈ src, b < 128)
    (hfit : a.mem_used + 4 * src.length ≤ MEM_CAPACITY) :
    ∃ a2 r2, ed_load_file_region (src.length + 1) src src.length a Region.empty
        = some (a2, r2) ∧
      region_data a2 r2 = load_model false src := by
  have hc : MEM_CAPACITY = 655360 := rfl
  by_cases h0 : src.length = 0
  · have : src = [] := List.length_eq_zero.1 h0
    subst this
    exact ⟨a, Region.empty, by simp [ed_load_file_region, array_ensure, Region.empty, wrap64,
      load_loop], by simp [region_data, Region.empty, load_model]⟩
  · obtain ⟨a1, ha1, hu1, _⟩ := mem_alloc_zeroed_fits a (src.length * 4) (by omega)
    have hw1 : wrap64 src.length = src.length := wrap64_eq _ (by omega)
    have hw2 : wrap64 (src.length * 4) = src.length * 4 := wrap64_eq _ (by omega)
    have hens : array_ensure a Region.empty src.length
        = some (a1, ⟨some a.mem_used, 0, src.length⟩) := by
      have hw0 : wrap64 0 = 0 := rfl
      simp [array_ensure, Region.empty, hw0, hw1, hw2, mem_realloc_zeroed, ha1,
        Nat.pos_of_ne_zero h0]
    obtain ⟨a2, r2, h2, inv2⟩ := load_loop_ascii src hascii a.mem_used (src.length + 1) 0 false
      a1 ⟨some a.mem_used, 0, src.length⟩ [] ⟨rfl, rfl, by simp; omega, by simp⟩
      (by omega) (by omega) (by simp)
    refine ⟨a2, r2, by simp [ed_load_file_region, hens, h2], ?_⟩
    simp only [region_data, inv2.hdata]
    simpa using inv2.hval

theorem normalize_ref_cons_ne (d : Nat) (t : List Nat) (hd : d ≠ 0x0D) :
    normalize_ref (d :: t) = d :: normalize_ref t := by
  cases t with
  | nil => simp [normalize_ref, hd]
  | cons e t => simp [normalize_ref, hd]

theorem cr_followed_tail (d : Nat) (t : List Nat) (h : cr_followed (d :: t) = true) :
    cr_followed t = true := by
  cases t with
  | nil => rfl
  | cons e t =>
    simp only [cr_followed, Bool.and_eq_true] at h
    exact h.2

/-- Where every `\r` is followed by another byte that is not `\r`, what the
loop appends is the reference normalisation. -/
theorem load_model_eq_ref (n : Nat) (src : List Nat) (hn : src.length ≤ n)
    (h : cr_followed src = true) : load_model false src = normalize_ref src := by
  induction n generalizing src with
  | zero =>
    have : src = [] := List.length_eq_zero.1 (by omega)
    subst this
    rfl
  | succ n ih =>
    match src, hn, h with
    | [], _, _ => rfl
    | [c], _, h =>
      have hc : c ≠ 0x0D := by simpa [cr_followed] using h
      simp [load_model, normalize_ref, hc]
    | c :: d :: t, hn, h =>
      have htl := cr_followed_tail c (d :: t) h
      simp only [List.length_cons] at hn
      by_cases hc : c = 0x0D
      · have hd : d ≠ 0x0D := by
          simp only [cr_followed, Bool.and_eq_true, Bool.or_eq_true, decide_eq_true_eq] at h
          rcases h.1 with h1 | h1
          · exact absurd hc h1
          · exact h1
        have ht := ih t (by omega) (cr_followed_tail d t htl)
        by_cases hlf : d = 0x0A
        · simp [load_model, normalize_ref, hc, hd, hlf, ht]
        · simp [load_model, normalize_ref, hc, hd, hlf, ht, normalize_ref_cons_ne d t hd]
      · have := ih (d :: t) (by simp only [List.length_cons]; omega) htl
        rw [load_model, normalize_ref]
        simp only [hc, if_false, Bool.false_eq_true]
        rw [this]

/-- The loader on ASCII input in which every `\r` is followed by another byte
that is not `\r`: the Region holds the reference normalisation. -/
theorem load_ascii_normalizes (src : List Nat) (a : Arena) (hascii : ∀ b ∈ src, b < 128)
    (hcr : cr_followed src = true)
    (hfit : a.mem_used + 4 * src.length ≤ MEM_CAPACITY) :
    ∃ a2 r2, ed_load_file_region (src.length + 1) src src.length a Region.empty
        = some (a2, r2) ∧
      region_data a2 r2 = normalize_ref src := by
  obtain ⟨a2, r2, h1, h2⟩ := load_ascii src a hascii hfit
  exact ⟨a2, r2, h1, by rw [h2, load_model_eq_ref src.length src (le_refl _) hcr]⟩

/-- C2 (the code at the failing input). Loading `a \r` into an empty Region
gives the one codepoint `a`: the pending `\r` at the end of the input is never
turned into `\n`, where the reference normalisation gives `a \n`. Likewise
`\r \r a` is loaded as `\n a`, the first `\r` of the run being lost, where the
reference gives `\n \n a`. -/
theorem load_trailing_cr_dropped :
    (ed_load_file_region 3 [0x61, 0x0D] 2 Arena.init Region.empty).map
        (fun s => region_data s.1 s.2) = some [0x61] ∧
    normalize_ref [0x61, 0x0D] = [0x61, 0x0A] ∧
    (ed_load_file_region 4 [0x0D, 0x0D, 0x61] 3 Arena.init Region.empty).map
        (fun s => region_data s.1 s.2) = some [0x0A, 0x61] ∧
    normalize_ref [0x0D, 0x0D, 0x61] = [0x0A, 0x0A, 0x61] := by
  decide

/-- The spec's example of C2: `a \r \n b \r c \n d` is loaded as
`a \n b \n c \n d`, which is also its reference normalisation. -/
theorem load_spec_example :
    (ed_load_file_region 9 [0x61, 0x0D, 0x0A, 0x62, 0x0D, 0x63, 0x0A, 0x64] 8
        Arena.init Region.empty).map (fun s => region_data s.1 s.2)
      = some [0x61, 0x0A, 0x62, 0x0A, 0x63, 0x0A, 0x64] ∧
    normalize_ref [0x61, 0x0D, 0x0A, 0x62, 0x0D, 0x63, 0x0A, 0x64]
      = [0x61, 0x0A, 0x62, 0x0A, 0x63, 0x0A, 0x64] := by
  decide

/-! ### C3 : the renderer turns the previous screen into the current one -/

theorem cell_index_lt (w h r c : Nat) (hr : r < h) (hc : c < w) : r * w + c < w * h := by
  have h1 : (r + 1) * w ≤ h * w := Nat.mul_le_mul_right w hr
  have h2 : (r + 1) * w = r * w + w := by ring
  have h3 : h * w = w * h := Nat.mul_comm h w
  omega

/-- The bytes of the positioning sequence of the cell `(row, col)`:
`ESC [ row+1 ; col+1 H`. -/
theorem cursor_bytes (row col : Nat) :
    (Esc.cursor col row).bytes
      = [0x1b, 0x5b] ++ dec_bytes (row + 1) ++ [0x3b] ++ dec_bytes (col + 1) ++ [0x48] := by
  have h1 : ¬ ((row : Int) + 1 < 0) := by omega
  have h2 : ¬ ((col : Int) + 1 < 0) := by omega
  have h3 : ((row : Int) + 1).natAbs = row + 1 := by omega
  have h4 : ((col : Int) + 1).natAbs = col + 1 := by omega
  simp only [Esc.bytes, int_bytes, h1, h2, h3, h4, if_false]

theorem take_set_of_le (l : List Nat) (n i v : Nat) (h : n ≤ i) :
    (l.set i v).take n = l.take n := by
  induction l generalizing n i with
  | nil => simp
  | cons a t ih =>
    cases n with
    | zero => simp
    | succ n =>
      cases i with
      | zero => omega
      | succ i => simp [ih n i (by omega)]

/-- The encoder in arithmetic form, for any buffer and size. -/
theorem utf32_to_8_general (cp : Nat) (buf : List Nat) (sz : Nat) (hcp : cp ≤ 0x10FFFF) :
    utf32_to_8 cp buf sz =
      if sz < utf8_len cp then (0, buf)
      else if cp ≤ 0x7F then (1, buf.set 0 cp)
      else if cp ≤ 0x7FF then (2, (buf.set 0 (192 + cp / 64)).set 1 (128 + cp % 64))
      else if cp ≤ 0xFFFF then
        (3, ((buf.set 0 (224 + cp / 4096)).set 1 (128 + cp / 64 % 64)).set 2 (128 + cp % 64))
      else (4, (((buf.set 0 (240 + cp / 262144)).set 1 (128 + cp / 4096 % 64)).set 2
                (128 + cp / 64 % 64)).set 3 (128 + cp % 64)) := by
  have m := Nat.mod_lt cp (show 64 > 0 by norm_num)
  have m1 := Nat.mod_lt (cp / 64) (show 64 > 0 by norm_num)
  have m2 := Nat.mod_lt (cp / 4096) (show 64 > 0 by norm_num)
  have e6 : cp >>> 6 = cp / 64 := Nat.shiftRight_eq_div_pow cp 6
  have e12 : cp >>> 12 = cp / 4096 := Nat.shiftRight_eq_div_pow cp 12
  have e18 : cp >>> 18 = cp / 262144 := Nat.shiftRight_eq_div_pow cp 18
  unfold utf32_to_8 utf8_len
  simp only [e6, e12, e18, and_63, enc_cont_nat _ m, enc_cont_nat _ m1, enc_cont_nat _ m2]
  by_cases h1 : cp ≤ 0x7F
  · have hb : cp % 256 = cp := Nat.mod_eq_of_lt (by omega)
    simp only [h1, hb, if_true]
  by_cases h2 : cp ≤ 0x7FF
  · have := enc_lead_2 ⟨cp / 64, by omega⟩
    simp only [Fin.val_mk] at this
    simp only [h1, h2, this, if_true, if_false]
  by_cases h3 : cp ≤ 0xFFFF
  · have := enc_lead_3 ⟨cp / 4096, by omega⟩
    simp only [Fin.val_mk] at this
    simp only [h1, h2, h3, this, if_true, if_false]
  · have := enc_lead_4 ⟨cp / 262144, by omega⟩
    simp only [Fin.val_mk] at this
    simp only [h1, h2, h3, hcp, this, if_true, if_false]

theorem utf32_to_8_too_big (cp : Nat) (buf : List Nat) (sz : Nat) (hcp : 0x10FFFF < cp) :
    utf32_to_8 cp buf sz = (0, buf) := by
  unfold utf32_to_8
  rw [if_neg (by omega), if_neg (by omega), if_neg (by omega), if_neg (by omega)]

/-- The bytes written by a successful call are the reference encoding. -/
theorem utf32_to_8_bytes (cp : Nat) (buf : List Nat) (sz : Nat) (hcp : cp ≤ 0x10FFFF)
    (hsz : utf8_len cp ≤ sz) (hbuf : sz ≤ buf.length) :
    (utf32_to_8 cp buf sz).1 = utf8_len cp ∧
    (utf32_to_8 cp buf sz).2.take (utf8_len cp) = utf8_encode_ref cp ∧
    (utf32_to_8 cp buf sz).2.drop (utf8_len cp) = buf.drop (utf8_len cp) := by
  rw [utf32_to_8_general cp buf sz hcp, if_neg (by omega)]
  unfold utf8_len utf8_encode_ref at *
  by_cases h1 : cp ≤ 0x7F
  · simp only [h1, if_true] at hsz ⊢
    match buf, hbuf with
    | b0 :: t, _ => simp
    | [], hb => simp at hb; omega
  by_cases h2 : cp ≤ 0x7FF
  · simp only [h1, h2, if_true, if_false] at hsz ⊢
    match buf, hbuf with
    | b0 :: b1 :: t, _ => simp
    | [b0], hb => simp at hb; omega
    | [], hb => simp at hb; omega
  by_cases h3 : cp ≤ 0xFFFF
  · simp only [h1, h2, h3, if_true, if_false] at hsz ⊢
    match buf, hbuf with
    | b0 :: b1 :: b2 :: t, _ => simp
    | [b0, b1], hb => simp at hb; omega
    | [b0], hb => simp at hb; omega
    | [], hb => simp at hb; omega
  · simp only [h1, h2, h3, if_true, if_false] at hsz ⊢
    match buf, hbuf with
    | b0 :: b1 :: b2 :: b3 :: t, _ => simp
    | [b0, b1, b2], hb => simp at hb; omega
    | [b0, b1], hb => simp at hb; omega
    | [b0], hb => simp at hb; omega
    | [], hb => simp at hb; omega

/-- The reference encoding has the standard byte patterns: its length is
`L(cp)`, the leading byte starts `0`, `110`, `1110` or `11110` according to the
length, every following byte is of the form `10xxxxxx`, and the payload bits
read back give `cp`. -/
theorem utf8_encode_ref_shape (cp : Nat) (hcp : cp ≤ 0x10FFFF) :
    (utf8_encode_ref cp).length = utf8_len cp ∧
    announced_len ((utf8_encode_ref cp).headD 0) = utf8_len cp ∧
    (∀ b ∈ (utf8_encode_ref cp).tail, b / 64 = 2) ∧
    (∀ b ∈ utf8_encode_ref cp, b < 256) ∧
    utf8_decode_ref (utf8_encode_ref cp) (utf8_len cp) = (cp, utf8_len cp) := by
  unfold utf8_encode_ref utf8_len utf8_decode_ref announced_len lead_payload rd
  by_cases h1 : cp ≤ 0x7F
  · have a1 : cp / 128 = 0 := by omega
    simp [h1, a1]
    omega
  by_cases h2 : cp ≤ 0x7FF
  · have a1 : ¬ ((192 + cp / 64) / 128 = 0) := by omega
    have a2 : (192 + cp / 64) / 32 = 6 := by omega
    simp [h1, h2, a1, a2]
    omega
  by_cases h3 : cp ≤ 0xFFFF
  · have a1 : ¬ ((224 + cp / 4096) / 128 = 0) := by omega
    have a2 : ¬ ((224 + cp / 4096) / 32 = 6) := by omega
    have a3 : (224 + cp / 4096) / 16 = 14 := by omega
    simp [h1, h2, h3, a1, a2, a3]
    omega
  · have a1 : ¬ ((240 + cp / 262144) / 128 = 0) := by omega
    have a2 : ¬ ((240 + cp / 262144) / 32 = 6) := by omega
    have a3 : ¬ ((240 + cp / 262144) / 16 = 14) := by omega
    have a4 : (240 + cp / 262144) / 8 = 30 := by omega
    simp [h1, h2, h3, a1, a2, a3, a4]
    omega

/-- C11. For every 32-bit `cp` and every size `sz` of a buffer that holds at
least `sz` bytes: `utf32_to_8` returns 0 exactly when `cp > 0x10FFFF` or
`sz < L(cp)`; otherwise it returns `L(cp)`, the `L(cp)` bytes written are the
reference encoding of `cp` (leading byte `0`, `110`, `1110` or `11110`, every
following byte `10xxxxxx`, the payload bits giving `cp`), and the rest of the
buffer is as before. -/
theorem utf32_to_8_return (cp : Nat) (buf : List Nat) (sz : Nat)
    (_hcp32 : cp < 4294967296) (hbuf : sz ≤ buf.length) :
    ((utf32_to_8 cp buf sz).1 = 0 ↔ (0x10FFFF < cp ∨ sz < utf8_len cp)) ∧
    (¬ (0x10FFFF < cp ∨ sz < utf8_len cp) →
      (utf32_to_8 cp buf sz).1 = utf8_len cp ∧
      (utf32_to_8 cp buf sz).2.take (utf8_len cp) = utf8_encode_ref cp ∧
      (utf32_to_8 cp buf sz).2.drop (utf8_len cp) = buf.drop (utf8_len cp) ∧
      announced_len ((utf8_encode_ref cp).headD 0) = utf8_len cp ∧
      (∀ b ∈ (utf8_encode_ref cp).tail, b / 64 = 2) ∧
      utf8_decode_ref (utf8_encode_ref cp) (utf8_len cp) = (cp, utf8_len cp)) := by
  have hpos : 1 ≤ utf8_len cp := by unfold utf8_len; split_ifs <;> omega
  refine ⟨?_, ?_⟩
  · by_cases hbig : 0x10FFFF < cp
    · simp [utf32_to_8_too_big cp buf sz hbig, hbig]
    · by_cases hs : sz < utf8_len cp
      · rw [utf32_to_8_general cp buf sz (by omega), if_pos hs]
        simp [hs]
      · have := (utf32_to_8_bytes cp buf sz (by omega) (by omega) hbuf).1
        rw [this]
        constructor
        · intro h0; omega
        · rintro (h | h)
          · exact absurd h hbig
          · exact absurd h hs
  · intro h
    have hcp : cp ≤ 0x10FFFF := by omega
    have hs : utf8_len cp ≤ sz := by omega
    obtain ⟨b1, b2, b3⟩ := utf32_to_8_bytes cp buf sz hcp hs hbuf
    obtain ⟨s1, s2, s3, _, s5⟩ := utf8_encode_ref_shape cp hcp
    exact ⟨b1, b2, b3, s2, s3, s5⟩

/-- Witness of C11: `0x20AC` in a 3-byte buffer gives `E2 82 AC`; in a 2-byte
buffer it gives 0. -/
theorem utf32_to_8_return_witness :
    (utf32_to_8 0x20AC [0, 0, 0] 3).1 = utf8_len 0x20AC ∧
    (utf32_to_8 0x20AC [0, 0, 0] 3).2.take (utf8_len 0x20AC) = [0xE2, 0x82, 0xAC] ∧
    (utf32_to_8 0x20AC [0, 0] 2).1 = 0 :=
  ⟨((utf32_to_8_return 0x20AC [0, 0, 0] 3 (by decide) (by decide)).2 (by decide)).1,
   ((utf32_to_8_return 0x20AC [0, 0, 0] 3 (by decide) (by decide)).2 (by decide)).2.1.trans
     (by decide),
   by decide⟩

/-! ### C12 : the loader on malformed UTF-8 -/

/-- A decode that consumes no byte returns the codepoint 0. -/
theorem utf8_to_32_zero_used (buf : List Nat) (sz : Nat)
    (h : (utf8_to_32 buf sz 0).2 = 0) : (utf8_to_32 buf sz 0).1 = 0 := by
  unfold utf8_to_32 at h ⊢
  split_ifs at h ⊢ <;> simp_all

/-- At a position where the decode consumes no byte the loop of the loader
makes no progress: `pos` stays, the codepoint 0 is appended at every iteration,
and the loop never reaches its exit, whatever the fuel (it ends only by the
fault of an exhausted arena). -/
theorem load_loop_stuck (src : List Nat) (size pos : Nat) (hpos : pos < size)
    (h : (utf8_to_32 (src.drop pos) (size - pos) 0).2 = 0)
    (fuel : Nat) (prev_cr : Bool) (a : Arena) (r : Region) :
    load_loop fuel src size pos prev_cr a r = none := by
  have hcp := utf8_to_32_zero_used _ _ h
  induction fuel generalizing prev_cr a r with
  | zero => rfl
  | succ f ih =>
    rw [load_loop, if_pos hpos, hcp, h, if_neg (by decide)]
    simp only [Nat.add_zero]
    cases prev_cr with
    | true =>
      simp only [if_true]
      cases h1 : append_store a r 0x0A with
      | none => rfl
      | some s1 =>
        obtain ⟨a1, r1⟩ := s1
        simp only
        rw [if_neg (by decide)]
        cases h2 : append_store a1 r1 0 with
        | none => rfl
        | some s2 =>
          obtain ⟨a2, r2⟩ := s2
          exact ih false a2 r2
    | false =>
      simp only [Bool.false_eq_true, if_false]
      cases h2 : append_store a r 0 with
      | none => rfl
      | some s2 =>
        obtain ⟨a2, r2⟩ := s2
        exact ih false a2 r2

/-- C12 (the code at the failing input). The 2-byte file `a 0x80`: after `a`
the decode of the stray continuation byte `0x80` fails with zero bytes
consumed, and `ed_load_file_region` never returns, whatever the fuel, the arena
and the Region: the load does not stop there, and the `unmap` call after the
loop is not reached. -/
theorem load_malformed_never_returns (fuel : Nat) (a : Arena) (r : Region) :
    (utf8_to_32 ([0x61, 0x80].drop 1) (2 - 1) 0) = (0, 0) ∧
    ed_load_file_region fuel [0x61, 0x80] 2 a r = none := by
  refine ⟨by decide, ?_⟩
  have hstuck : ∀ (f : Nat) (p : Bool) (a1 : Arena) (r1 : Region),
      load_loop f [0x61, 0x80] 2 1 p a1 r1 = none :=
    fun f p a1 r1 => load_loop_stuck [0x61, 0x80] 2 1 (by decide) (by decide) f p a1 r1
  unfold ed_load_file_region
  cases he : array_ensure a r 2 with
  | none => rfl
  | some s =>
    obtain ⟨a1, r1⟩ := s
    simp only
    cases fuel with
    | zero => rfl
    | succ f =>
      have hd : utf8_to_32 ([0x61, 0x80].drop 0) (2 - 0) 0 = (0x61, 1) := by decide
      rw [load_loop, if_pos (by decide), hd]
      simp only [Nat.zero_add, Bool.false_eq_true, if_false]
      rw [if_neg (by decide)]
      cases h2 : append_store a1 r1 0x61 with
      | none => rfl
      | some s2 =>
        obtain ⟨a2, r2⟩ := s2
        exact hstuck f false a2 r2

/-- What one iteration at the stuck position does while the arena has room:
from an empty Region with room for one codepoint, it appends the codepoint 0. -/
theorem load_malformed_appends_zero :
    ((array_ensure Arena.init Region.empty 1).bind (fun s =>
      (append_store s.1 s.2 0).map (fun s2 => (region_data s2.1 s2.2, s2.2.count))))
        = some ([0], 1) := by
  decide

/-! ### C13 : promotion of back to front -/

/-- C13. For frames `back` and `front` of equal dimensions (each holding its
`width * height` cells), `display` succeeds and the frame `front` after it has
every cell equal to the corresponding cell of `back` (codepoint, foreground,
background) and its dimensions unchanged; `display` writes to `front` only, so
`back` and its dimensions are unchanged. -/
theorem display_promotes_back (back front : Frame)
    (hw : front.width = back.width) (hh : front.height = back.height)
    (hlenb : back.width * back.height ≤ back.glyphs.length)
    (hlenf : front.width * front.height ≤ front.glyphs.length) :
    ∃ out front2, display back front = some (out, front2) ∧
      front2.width = front.width ∧ front2.height = front.height ∧
      front2.glyphs.length = front.glyphs.length ∧
      (∀ row col, row < back.height → col < back.width →
        front2.cell (row * back.width + col) = back.cell (row * back.width + col)) ∧
      (∀ idx, back.width * back.height ≤ idx → front2.cell idx = front.cell idx) := by
  rw [hw, hh] at hlenf
  have hd : display back front
      = some ([Esc.home, Esc.reset] ++ (display_sweep back front).out
          ++ [Esc.cursor ((back.width : Int) - 1) ((back.height : Int) - 1)],
        { front with glyphs := back.glyphs.take (frame_cells back)
                       ++ front.glyphs.drop (frame_cells back) }) := by
    simp only [display, hw, hh, and_self, if_true]
  have hlt : (back.glyphs.take (frame_cells back)).length = back.width * back.height := by
    rw [List.length_take, frame_cells]; omega
  refine ⟨_, _, hd, rfl, rfl, ?_, ?_, ?_⟩
  · simp only [List.length_append, List.length_take, List.length_drop, frame_cells]
    omega
  · intro row col hr hc
    have hi := cell_index_lt back.width back.height row col hr hc
    simp only [Frame.cell, List.getD_eq_getElem?_getD]
    rw [List.getElem?_append_left (by omega), List.getElem?_take_of_lt (by rw [frame_cells]; omega)]
  · intro idx hidx
    simp only [Frame.cell, List.getD_eq_getElem?_getD]
    rw [List.getElem?_append_right (by omega), hlt, List.getElem?_drop, frame_cells]
    congr 2
    omega

/-- Witness of C13: a 2 by 1 screen whose first cell changed. -/
theorem display_promotes_back_witness :
    ∃ out front2,
      display ⟨[⟨0xE9, .COLOR_RED, .COLOR_DEFAULT⟩, ⟨0x20, .COLOR_DEFAULT, .COLOR_DEFAULT⟩], 2, 1⟩
          ⟨[⟨0x20, .COLOR_DEFAULT, .COLOR_DEFAULT⟩, ⟨0x20, .COLOR_DEFAULT, .COLOR_DEFAULT⟩], 2, 1⟩
        = some (out, front2) ∧
      front2 = ⟨[⟨0xE9, .COLOR_RED, .COLOR_DEFAULT⟩, ⟨0x20, .COLOR_DEFAULT, .COLOR_DEFAULT⟩], 2, 1⟩ := by
  obtain ⟨out, front2, h1, _⟩ := display_promotes_back
    ⟨[⟨0xE9, .COLOR_RED, .COLOR_DEFAULT⟩, ⟨0x20, .COLOR_DEFAULT, .COLOR_DEFAULT⟩], 2, 1⟩
    ⟨[⟨0x20, .COLOR_DEFAULT, .COLOR_DEFAULT⟩, ⟨0x20, .COLOR_DEFAULT, .COLOR_DEFAULT⟩], 2, 1⟩
    rfl rfl (by decide) (by decide)
  refine ⟨out, front2, h1, ?_⟩
  have h2 : (display
      ⟨[⟨0xE9, .COLOR_RED, .COLOR_DEFAULT⟩, ⟨0x20, .COLOR_DEFAULT, .COLOR_DEFAULT⟩], 2, 1⟩
      ⟨[⟨0x20, .COLOR_DEFAULT, .COLOR_DEFAULT⟩, ⟨0x20, .COLOR_DEFAULT, .COLOR_DEFAULT⟩], 2, 1⟩).map
        Prod.snd
      = some ⟨[⟨0xE9, .COLOR_RED, .COLOR_DEFAULT⟩, ⟨0x20, .COLOR_DEFAULT, .COLOR_DEFAULT⟩], 2, 1⟩ := by
    decide
  rw [h1] at h2
  simpa using h2

/-! ### C14 : `ed_pf_put` -/

/-- Coordinates in range: the cell `y * width + x` is set and every other
cell is left as it was. -/
theorem ed_pf_put_in_range (f : Frame) (x y cp : Nat) (fg bg : Color)
    (hx : x < f.width) (hy : y < f.height) (hlen : f.glyphs.length = f.width * f.height) :
    ∃ f2, ed_pf_put f x y cp fg bg = .stored f2 ∧
      f2.width = f.width ∧ f2.height = f.height ∧
      f2.cell (y * f.width + x) = ⟨cp, fg, bg⟩ ∧
      ∀ idx, idx ≠ y * f.width + x → f2.cell idx = f.cell idx := by
  have hi := cell_index_lt f.width f.height y x hy hx
  have hcast : ((y : Int) * (f.width : Int) + (x : Int)) = ((y * f.width + x : Nat) : Int) := by
    push_cast; rfl
  have h1 : (x : Int) < (f.width : Int) ∧ (y : Int) < (f.height : Int) := by omega
  have h2 : (0 : Int) ≤ (y : Int) * (f.width : Int) + (x : Int) ∧
      (y : Int) * (f.width : Int) + (x : Int) < (f.glyphs.length : Int) := by
    rw [hcast]; omega
  refine ⟨{ f with glyphs := f.glyphs.set (y * f.width + x) ⟨cp, fg, bg⟩ }, ?_, rfl, rfl, ?_, ?_⟩
  · unfold ed_pf_put
    rw [if_pos h1, if_pos h2, hcast, Int.toNat_ofNat]
  · simp only [Frame.cell, List.getD_eq_getElem?_getD]
    rw [List.getElem?_set, if_pos rfl, if_pos (by omega)]
    rfl
  · intro idx hidx
    simp only [Frame.cell, List.getD_eq_getElem?_getD]
    rw [List.getElem?_set, if_neg (fun h => hidx h.symm)]

/-- Coordinates at or beyond the width or the height: the `ASSERT` fails. -/
theorem ed_pf_put_beyond (f : Frame) (x y : Int) (cp : Nat) (fg bg : Color)
    (h : (f.width : Int) ≤ x ∨ (f.height : Int) ≤ y) :
    ed_pf_put f x y cp fg bg = .fault := by
  unfold ed_pf_put
  rw [if_neg (by omega)]

/-- C14 (the code at the failing input). On a 2 by 2 frame, `ed_pf_put` at
`x = -1`, `y = 1` does not fail: the `ASSERT` only tests `x < width` and
`y < height`, and the store goes to `glyphs[1 * 2 - 1]`, the cell `(1, 0)`.
At `x = -1`, `y = 0` the store goes to `glyphs[-1]`, outside the frame. -/
theorem ed_pf_put_negative_x :
    ed_pf_put ⟨List.replicate 4 Text_Glyph.zero, 2, 2⟩ (-1) 1 0x41 .COLOR_RED .COLOR_BLUE
      = .stored ⟨[Text_Glyph.zero, ⟨0x41, .COLOR_RED, .COLOR_BLUE⟩, Text_Glyph.zero,
          Text_Glyph.zero], 2, 2⟩ ∧
    ed_pf_put ⟨List.replicate 4 Text_Glyph.zero, 2, 2⟩ (-1) 0 0x41 .COLOR_RED .COLOR_BLUE
      = .stray (-1) := by
  decide

/-! ### C15 : arena memory is zero-filled -/

/-- A growing `mem_realloc_zeroed` returns a block whenever a fresh block of the
new size would fit, whatever the pointer it is given. -/
theorem realloc_grow_returns (a : Arena) (ptr : Option Nat) (sz newsz : Nat)
    (hfit : a.mem_used + newsz ≤ MEM_CAPACITY) :
    ∃ q a1, mem_realloc_zeroed a ptr sz newsz = some (some q, a1) := by
  unfold mem_realloc_zeroed
  cases ptr with
  | none =>
    obtain ⟨a1, h1, _, _⟩ := mem_alloc_zeroed_fits a newsz hfit
    exact ⟨a.mem_used, a1, by simp only [h1]⟩
  | some p =>
    simp only
    by_cases hs : newsz ≤ sz
    · exact ⟨p, a, by rw [if_pos hs]⟩
    · rw [if_neg hs]
      by_cases ht : p = wrap64 (a.mem_used + 18446744073709551616 - sz)
      · obtain ⟨a1, h1, _, _⟩ := mem_alloc_zeroed_fits a (newsz - sz) (by omega)
        exact ⟨p, a1, by rw [if_pos ht, h1]⟩
      · obtain ⟨a1, h1, _, _⟩ := mem_alloc_zeroed_fits a newsz hfit
        exact ⟨a.mem_used, a1, by rw [if_neg ht, h1]⟩

/-- The capacity after `array_ensure`, in both of its cases. -/
theorem array_ensure_spec (a : Arena) (r : Region) (needed : Nat)
    (hno : r.count + needed < 18446744073709551616)
    (hroom : r.capacity < r.count + needed →
      a.mem_used + (r.capacity + max r.capacity needed) * 4 ≤ MEM_CAPACITY) :
    (r.count + needed ≤ r.capacity → array_ensure a r needed = some (a, r)) ∧
    (r.capacity < r.count + needed →
      ∃ q a1, array_ensure a r needed
        = some (a1, { r with capacity := r.capacity + max r.capacity needed,
                             data := some q })) := by
  have hc : MEM_CAPACITY = 655360 := rfl
  have hw1 : wrap64 (r.count + needed) = r.count + needed := wrap64_eq _ hno
  refine ⟨?_, ?_⟩
  · intro h
    unfold array_ensure
    rw [hw1, if_neg (by omega)]
  · intro h
    have hr := hroom h
    have hw2 : wrap64 (r.capacity + max r.capacity needed) = r.capacity + max r.capacity needed :=
      wrap64_eq _ (by omega)
    have hw3 : wrap64 ((r.capacity + max r.capacity needed) * 4)
        = (r.capacity + max r.capacity needed) * 4 := wrap64_eq _ (by omega)
    obtain ⟨q, a1, h1⟩ := realloc_grow_returns a r.data (wrap64 (r.capacity * 4))
      ((r.capacity + max r.capacity needed) * 4) (by omega)
    refine ⟨q, a1, ?_⟩
    unfold array_ensure
    rw [hw1, if_pos (by omega), hw2, hw3, h1]

/-- C16. For a sequence with `capacity >= count` and a `needed` that does not
overflow `size_t`, the arena having room for the grown block when a growth is
due: `array_ensure` returns, `count` is unchanged, `capacity >= count + needed`
afterwards, the capacity is unchanged when `count + needed <= capacity` and
otherwise grows by exactly `max(capacity, needed)`; `array_append_many` (and
`array_append`, which is `array_append_many` with 1) returns with
`count` advanced by `needed` and `capacity >= count` again. -/
theorem array_ensure_capacity (a : Arena) (r : Region) (needed : Nat)
    (hinv : r.count ≤ r.capacity)
    (hno : r.count + needed < 18446744073709551616)
    (hroom : r.capacity < r.count + needed →
      a.mem_used + (r.capacity + max r.capacity needed) * 4 ≤ MEM_CAPACITY) :
    (∃ a1 r1, array_ensure a r needed = some (a1, r1) ∧
      r1.count = r.count ∧ r.count + needed ≤ r1.capacity ∧
      (r.count + needed ≤ r.capacity → r1.capacity = r.capacity ∧ r1.data = r.data) ∧
      (r.capacity < r.count + needed →
        r1.capacity = r.capacity + max r.capacity needed)) ∧
    (∃ ptr a2 r2, array_append_many a r needed = some (ptr, a2, r2) ∧
      r2.count = r.count + needed ∧ r2.count ≤ r2.capacity) ∧
    (needed = 1 → ∃ ptr a2 r2, array_append a r = some (ptr, a2, r2) ∧
      r2.count = r.count + 1 ∧ r2.count ≤ r2.capacity) := by
  have hw1 : wrap64 (r.count + needed) = r.count + needed := wrap64_eq _ hno
  obtain ⟨hsame, hgrow⟩ := array_ensure_spec a r needed hno hroom
  have hens : ∃ a1 r1, array_ensure a r needed = some (a1, r1) ∧
      r1.count = r.count ∧ r.count + needed ≤ r1.capacity ∧
      (r.count + needed ≤ r.capacity → r1.capacity = r.capacity ∧ r1.data = r.data) ∧
      (r.capacity < r.count + needed →
        r1.capacity = r.capacity + max r.capacity needed) := by
    by_cases h : r.count + needed ≤ r.capacity
    · exact ⟨a, r, hsame h, rfl, h, fun _ => ⟨rfl, rfl⟩, fun h2 => by omega⟩
    · obtain ⟨q, a1, h1⟩ := hgrow (by omega)
      refine ⟨a1, _, h1, rfl, ?_, fun h2 => absurd h2 h, fun _ => rfl⟩
      simp only
      have := le_max_right r.capacity needed
      omega
  have hmany : ∃ ptr a2 r2, array_append_many a r needed = some (ptr, a2, r2) ∧
      r2.count = r.count + needed ∧ r2.count ≤ r2.capacity := by
    obtain ⟨a1, r1, h1, hc1, hcap1, _, _⟩ := hens
    refine ⟨r1.data.map (fun p => p + 4 * r1.count), a1,
      { r1 with count := wrap64 (r1.count + needed) }, ?_, ?_, ?_⟩
    · unfold array_append_many
      rw [h1]
    · simp only [hc1, hw1]
    · simp only [hc1, hw1]
      exact hcap1
  refine ⟨hens, hmany, ?_⟩
  intro h1
  subst h1
  exact hmany

/-- Witness of C16: a full sequence of 3 elements asked for 1 more grows its
capacity by `max(3, 1)`. -/
theorem array_ensure_capacity_witness :
    (∃ a1 r1, array_ensure Arena.init ⟨some 0, 3, 3⟩ 1 = some (a1, r1) ∧
      r1.count = 3 ∧ 3 + 1 ≤ r1.capacity ∧
      (3 + 1 ≤ 3 → r1.capacity = 3 ∧ r1.data = some 0) ∧
      (3 < 3 + 1 → r1.capacity = 3 + max 3 1)) :=
  (array_ensure_capacity Arena.init ⟨some 0, 3, 3⟩ 1 (by decide) (by decide)
    (fun _ => by decide)).1

/-! ### The loop of the loader on input whose decode steps make progress -/

/-- The loop of the loader is `load_step` repeated while `pos < size`. -/
theorem load_loop_unfold (fuel : Nat) (src : List Nat) (size : Nat) (s : LoadState) :
    load_loop (fuel + 1) src size s.pos s.prev_cr s.a s.r =
      if s.pos < size then
        match load_step src size s with
        | none => none
        | some s1 => load_loop fuel src size s1.pos s1.prev_cr s1.a s1.r
      else some (s.a, s.r) := by
  rw [load_loop]
  unfold load_step
  by_cases hlt : s.pos < size
  · simp only [hlt, if_true]
    by_cases hcr : (utf8_to_32 (src.drop s.pos) (size - s.pos) 0).1 = 0x0D
    · simp only [hcr, if_true]
    · simp only [hcr, if_false]
      cases hp : s.prev_cr with
      | true =>
        simp only [if_true]
        cases h1 : append_store s.a s.r 0x0A with
        | none => rfl
        | some s1 =>
          obtain ⟨a1, r1⟩ := s1
          simp only
          by_cases hlf : (utf8_to_32 (src.drop s.pos) (size - s.pos) 0).1 = 0x0A
          · simp only [hlf, if_true]
          · simp only [hlf, if_false]
            cases h2 : append_store a1 r1 (utf8_to_32 (src.drop s.pos) (size - s.pos) 0).1 with
            | none => rfl
            | some s2 => rfl
      | false =>
        simp only [Bool.false_eq_true, if_false]
        cases h2 : append_store s.a s.r (utf8_to_32 (src.drop s.pos) (size - s.pos) 0).1 with
        | none => rfl
        | some s2 => rfl
  · simp only [hlt, if_false]

/-- A decoded codepoint has at most 21 bits. -/
theorem utf8_to_32_lt (buf : List Nat) (sz u : Nat) :
    (utf8_to_32 buf sz u).1 < 2097152 := by
  unfold utf8_to_32
  split_ifs
  all_goals first
    | (simp only; omega)
    | (simp only [and_127]; omega)
    | (simp only [or2]; omega)
    | (simp only [or3]; omega)
    | (simp only [or4]; omega)

/-- A decode never consumes more than `sz` bytes. -/
theorem utf8_to_32_used_le (buf : List Nat) (sz : Nat) :
    (utf8_to_32 buf sz 0).2 ≤ sz := by
  unfold utf8_to_32
  split_ifs <;> simp only <;> omega

/-- One iteration keeps the invariant of the loop and advances `pos`. -/
theorem load_step_inv (src : List Nat) (size p cap : Nat) (done0 : List Nat)
    (s : LoadState) (app : List Nat) (inv : LoadInv size p cap done0 s app)
    (hlt : s.pos < size)
    (hprog : 1 ≤ (utf8_to_32 (src.drop s.pos) (size - s.pos) 0).2) :
    ∃ s1 app1, load_step src size s = some s1 ∧ LoadInv size p cap done0 s1 app1 ∧
      s1.pos = s.pos + (utf8_to_32 (src.drop s.pos) (size - s.pos) 0).2 ∧
      s1.r.data = s.r.data ∧ (∃ more, app1 = app ++ more) := by
  obtain ⟨hreg, hcap, hroom, hbound, hpos, hnocr⟩ := inv
  have hule := utf8_to_32_used_le (src.drop s.pos) (size - s.pos)
  have hcplt := utf8_to_32_lt (src.drop s.pos) (size - s.pos) 0
  have hcnt : s.r.count = done0.length + app.length := by
    rw [hreg.hcount, List.length_append]
  unfold load_step
  by_cases hcr : (utf8_to_32 (src.drop s.pos) (size - s.pos) 0).1 = 0x0D
  · rw [if_pos hcr]
    refine ⟨_, app, rfl, ⟨hreg, hcap, hroom, ?_, ?_, hnocr⟩, ?_, rfl, ⟨[], by simp⟩⟩
    · simp only [if_true]; split_ifs at hbound <;> omega
    · simp only; omega
    · rfl
  · rw [if_neg hcr]
    cases hp : s.prev_cr with
    | true =>
      rw [hp] at hbound
      simp only [if_true] at hbound ⊢
      obtain ⟨a1, r1, h1, inv1, hc1, hk1⟩ := append_store_room p s.a s.r (done0 ++ app) 0x0A
        hreg (by norm_num) (by omega)
      rw [h1]
      simp only
      by_cases hlf : (utf8_to_32 (src.drop s.pos) (size - s.pos) 0).1 = 0x0A
      · rw [if_pos hlf]
        refine ⟨_, app ++ [0x0A], rfl, ⟨by simpa [List.append_assoc] using inv1, by rw [hk1, hcap],
          hroom, ?_, ?_, ?_⟩, ?_, ?_, ⟨[0x0A], rfl⟩⟩
        · simp only [List.length_append, List.length_singleton, Bool.false_eq_true, if_false]
          omega
        · simp only; omega
        · intro v hv
          rcases List.mem_append.1 hv with h | h
          · exact hnocr v h
          · simp only [List.mem_singleton] at h; omega
        · rfl
        · simp only [inv1.hdata, hreg.hdata]
      · rw [if_neg hlf]
        obtain ⟨a2, r2, h2, inv2, hc2, hk2⟩ := append_store_room p a1 r1 (done0 ++ app ++ [0x0A])
          (utf8_to_32 (src.drop s.pos) (size - s.pos) 0).1 inv1 (by omega) (by omega)
        rw [h2]
        refine ⟨_, app ++ [0x0A, (utf8_to_32 (src.drop s.pos) (size - s.pos) 0).1], rfl,
          ⟨by simpa [List.append_assoc] using inv2, by rw [hk2, hk1, hcap], hroom, ?_, ?_, ?_⟩,
          ?_, ?_, ⟨_, rfl⟩⟩
        · simp only [List.length_append, List.length_cons, List.length_nil,
            Bool.false_eq_true, if_false]
          omega
        · simp only; omega
        · intro v hv
          rcases List.mem_append.1 hv with h | h
          · exact hnocr v h
          · simp only [List.mem_cons, List.mem_singleton, List.not_mem_nil, or_false] at h
            rcases h with h | h
            · omega
            · rw [h]; exact hcr
        · rfl
        · simp only [inv2.hdata, hreg.hdata]
    | false =>
      rw [hp] at hbound
      simp only [Bool.false_eq_true, if_false] at hbound ⊢
      obtain ⟨a2, r2, h2, inv2, hc2, hk2⟩ := append_store_room p s.a s.r (done0 ++ app)
        (utf8_to_32 (src.drop s.pos) (size - s.pos) 0).1 hreg (by omega) (by omega)
      rw [h2]
      refine ⟨_, app ++ [(utf8_to_32 (src.drop s.pos) (size - s.pos) 0).1], rfl,
        ⟨by simpa [List.append_assoc] using inv2, by rw [hk2, hcap], hroom, ?_, ?_, ?_⟩,
        ?_, ?_, ⟨_, rfl⟩⟩
      · simp only [List.length_append, List.length_singleton, hp, Bool.false_eq_true, if_false]
        omega
      · simp only; omega
      · intro v hv
        rcases List.mem_append.1 hv with h | h
        · exact hnocr v h
        · simp only [List.mem_singleton] at h
          rw [h]; exact hcr
      · rfl
      · simp only [inv2.hdata, hreg.hdata]

theorem decode_progress_step (f : Nat) (src : List Nat) (size pos : Nat) (hlt : pos < size)
    (h : decode_progress (f + 1) src size pos = true) :
    1 ≤ (utf8_to_32 (src.drop pos) (size - pos) 0).2 ∧
    decode_progress f src size (pos + (utf8_to_32 (src.drop pos) (size - pos) 0).2) = true := by
  rw [decode_progress, if_pos hlt, Bool.and_eq_true, decide_eq_true_eq] at h
  exact h

/-- The invariant holds after any number of iterations, none of which faults. -/
theorem load_iter_inv (src : List Nat) (size p cap : Nat) (done0 : List Nat)
    (k f : Nat) (s : LoadState) (app : List Nat) (inv : LoadInv size p cap done0 s app)
    (hf : size - s.pos ≤ f) (hprog : decode_progress f src size s.pos = true) :
    ∃ s2 app2, load_iter src size k s = some s2 ∧ LoadInv size p cap done0 s2 app2 ∧
      s2.r.data = s.r.data := by
  induction k generalizing f s app with
  | zero => exact ⟨s, app, rfl, inv, rfl⟩
  | succ k ih =>
    rw [load_iter]
    by_cases hlt : s.pos < size
    · rw [if_pos hlt]
      obtain ⟨f1, rfl⟩ : ∃ f1, f = f1 + 1 := ⟨f - 1, by omega⟩
      obtain ⟨hp1, hp2⟩ := decode_progress_step f1 src size s.pos hlt hprog
      obtain ⟨s1, app1, h1, inv1, hpos1, hd1, _⟩ :=
        load_step_inv src size p cap done0 s app inv hlt hp1
      rw [h1]
      simp only
      obtain ⟨s2, app2, h2, inv2, hd2⟩ := ih f1 s1 app1 inv1 (by omega) (by rw [hpos1]; exact hp2)
      exact ⟨s2, app2, h2, inv2, by rw [hd2, hd1]⟩
    · rw [if_neg hlt]
      exact ⟨s, app, rfl, inv, rfl⟩

/-- The loop ends, without a fault, in a state that satisfies the invariant. -/
theorem load_loop_inv (src : List Nat) (size p cap : Nat) (done0 : List Nat)
    (fuel f : Nat) (s : LoadState) (app : List Nat) (inv : LoadInv size p cap done0 s app)
    (hfuel : size - s.pos < fuel) (hf : size - s.pos ≤ f)
    (hprog : decode_progress f src size s.pos = true) :
    ∃ s2 app2, load_loop fuel src size s.pos s.prev_cr s.a s.r = some (s2.a, s2.r) ∧
      LoadInv size p cap done0 s2 app2 ∧ s2.r.data = s.r.data := by
  induction fuel generalizing f s app with
  | zero => omega
  | succ fuel ih =>
    rw [load_loop_unfold]
    by_cases hlt : s.pos < size
    · rw [if_pos hlt]
      obtain ⟨f1, rfl⟩ : ∃ f1, f = f1 + 1 := ⟨f - 1, by omega⟩
      obtain ⟨hp1, hp2⟩ := decode_progress_step f1 src size s.pos hlt hprog
      obtain ⟨s1, app1, h1, inv1, hpos1, hd1, _⟩ :=
        load_step_inv src size p cap done0 s app inv hlt hp1
      rw [h1]
      simp only
      obtain ⟨s2, app2, h2, inv2, hd2⟩ := ih f1 s1 app1 inv1 (by omega) (by omega)
        (by rw [hpos1]; exact hp2)
      exact ⟨s2, app2, h2, inv2, by rw [hd2, hd1]⟩
    · rw [if_neg hlt]
      exact ⟨s, app, rfl, inv, rfl⟩

/-- The reservation `array_ensure(p, region, size)` on an empty Region. -/
theorem array_ensure_empty (a : Arena) (size : Nat) (hpos : 0 < size)
    (hfit : a.mem_used + 4 * size ≤ MEM_CAPACITY) :
    ∃ a1, array_ensure a Region.empty size = some (a1, ⟨some a.mem_used, 0, size⟩) := by
  have hc : MEM_CAPACITY = 655360 := rfl
  obtain ⟨a1, ha1, hu1, _⟩ := mem_alloc_zeroed_fits a (size * 4) (by omega)
  have hw0 : wrap64 0 = 0 := rfl
  have hw1 : wrap64 size = size := wrap64_eq _ (by omega)
  have hw2 : wrap64 (size * 4) = size * 4 := wrap64_eq _ (by omega)
  exact ⟨a1, by simp [array_ensure, Region.empty, hw0, hw1, hw2, mem_realloc_zeroed, ha1, hpos]⟩

theorem load_inv_start (a1 : Arena) (p size : Nat) (hcap : size ≤ MEM_CAPACITY) :
    LoadInv size p size [] ⟨0, false, a1, ⟨some p, 0, size⟩⟩ [] :=
  ⟨⟨rfl, rfl, hcap, by simp⟩, rfl, by simp, by simp, by simp, by simp⟩

/-! ### C17 : no carriage return survives loading -/

/-- C17. For every input on which every decode step consumes at least one
byte, loaded into an empty Region (the arena having room for 4 bytes per input
byte): `ed_load_file_region` returns, and none of the codepoints it appended
is `0x0D`, also when `0x0D` comes from an over-long encoding. -/
theorem load_no_carriage_return (src : List Nat) (a : Arena)
    (hprog : decode_progress src.length src src.length 0 = true)
    (hfit : a.mem_used + 4 * src.length ≤ MEM_CAPACITY) :
    ∃ a2 r2, ed_load_file_region (src.length + 1) src src.length a Region.empty
        = some (a2, r2) ∧
      ∀ v ∈ region_data a2 r2, v ≠ 0x0D := by
  have hc : MEM_CAPACITY = 655360 := rfl
  by_cases h0 : src.length = 0
  · have : src = [] := List.length_eq_zero.1 h0
    subst this
    exact ⟨a, Region.empty, by simp [ed_load_file_region, array_ensure, Region.empty, wrap64,
      load_loop], by simp [region_data, Region.empty]⟩
  · obtain ⟨a1, hens⟩ := array_ensure_empty a src.length (by omega) hfit
    obtain ⟨s2, app2, h2, inv2, _⟩ := load_loop_inv src src.length a.mem_used src.length []
      (src.length + 1) src.length ⟨0, false, a1, ⟨some a.mem_used, 0, src.length⟩⟩ []
      (load_inv_start a1 a.mem_used src.length (by omega)) (by simp) (by simp) hprog
    refine ⟨s2.a, s2.r, by simp only [ed_load_file_region, hens, h2], ?_⟩
    have hv := inv2.hreg.hval
    simp only [region_data, inv2.hreg.hdata, hv, List.nil_append]
    exact inv2.hnocr

/-- Witness of C17: the over-long encoding `C0 8D` of `0x0D` followed by `a`
is loaded as `\n a`. -/
theorem load_no_carriage_return_witness :
    ∃ a2 r2, ed_load_file_region ([0xC0, 0x8D, 0x61].length + 1) [0xC0, 0x8D, 0x61]
        [0xC0, 0x8D, 0x61].length Arena.init Region.empty = some (a2, r2) ∧
      ∀ v ∈ region_data a2 r2, v ≠ 0x0D :=
  load_no_carriage_return [0xC0, 0x8D, 0x61] Arena.init (by decide) (by decide)

/-- The over-long carriage return, evaluated: `C0 8D` decodes to `0x0D`, and
the Region holds `\n a`. -/
theorem load_overlong_cr :
    utf8_to_32 [0xC0, 0x8D, 0x61] 3 0 = (0x0D, 2) ∧
    (ed_load_file_region 4 [0xC0, 0x8D, 0x61] 3 Arena.init Region.empty).map
        (fun s => region_data s.1 s.2) = some [0x0A, 0x61] := by
  decide

/-! ### C18 : one codepoint per byte is an upper bound -/

/-- C18. For every input of `size` bytes on which every decode step consumes
at least one byte, loaded into an empty Region (the arena having room for 4
bytes per input byte): the initial `array_ensure` reserves the capacity `size`;
after any number of iterations of the loop the codepoints appended plus the
pending-CR flag do not exceed the bytes consumed, and the Region has the same
capacity and data block; the load returns with at most `size` codepoints, the
capacity and the data block being those of the initial reservation. -/
theorem load_within_capacity (src : List Nat) (a : Arena)
    (hprog : decode_progress src.length src src.length 0 = true)
    (hfit : a.mem_used + 4 * src.length ≤ MEM_CAPACITY) :
    ∃ a1 r1, array_ensure a Region.empty src.length = some (a1, r1) ∧
      r1.count = 0 ∧ r1.capacity = src.length ∧
      (∀ k, ∃ s, load_iter src src.length k ⟨0, false, a1, r1⟩ = some s ∧
        s.r.count + (if s.prev_cr then 1 else 0) ≤ s.pos ∧ s.pos ≤ src.length ∧
        s.r.count ≤ s.r.capacity ∧
        s.r.capacity = r1.capacity ∧ s.r.data = r1.data) ∧
      (∃ a2 r2, ed_load_file_region (src.length + 1) src src.length a Region.empty
          = some (a2, r2) ∧
        r2.count ≤ src.length ∧ r2.capacity = r1.capacity ∧ r2.data = r1.data) := by
  have hc : MEM_CAPACITY = 655360 := rfl
  by_cases h0 : src.length = 0
  · have : src = [] := List.length_eq_zero.1 h0
    subst this
    refine ⟨a, Region.empty, by simp [array_ensure, Region.empty, wrap64], rfl, rfl, ?_, ?_⟩
    · intro k
      refine ⟨⟨0, false, a, Region.empty⟩, ?_, by simp [Region.empty], by simp,
        by simp [Region.empty], rfl, rfl⟩
      cases k <;> simp [load_iter]
    · exact ⟨a, Region.empty, by simp [ed_load_file_region, array_ensure, Region.empty, wrap64,
        load_loop], by simp [Region.empty], rfl, rfl⟩
  · obtain ⟨a1, hens⟩ := array_ensure_empty a src.length (by omega) hfit
    have inv0 := load_inv_start a1 a.mem_used src.length (by omega)
    refine ⟨a1, ⟨some a.mem_used, 0, src.length⟩, hens, rfl, rfl, ?_, ?_⟩
    · intro k
      obtain ⟨s2, app2, h2, inv2, hd2⟩ := load_iter_inv src src.length a.mem_used src.length []
        k src.length ⟨0, false, a1, ⟨some a.mem_used, 0, src.length⟩⟩ [] inv0 (by simp) hprog
      have hcnt : s2.r.count = app2.length := by
        rw [inv2.hreg.hcount]; simp
      have hb := inv2.hbound
      have hp := inv2.hpos
      refine ⟨s2, h2, by rw [hcnt]; exact hb, hp, ?_, inv2.hcap, hd2⟩
      rw [hcnt, inv2.hcap]
      split_ifs at hb <;> omega
    · obtain ⟨s2, app2, h2, inv2, hd2⟩ := load_loop_inv src src.length a.mem_used src.length []
        (src.length + 1) src.length ⟨0, false, a1, ⟨some a.mem_used, 0, src.length⟩⟩ []
        inv0 (by simp) (by simp) hprog
      have hcnt : s2.r.count = app2.length := by
        rw [inv2.hreg.hcount]; simp
      have hb := inv2.hbound
      have hp := inv2.hpos
      refine ⟨s2.a, s2.r, by simp only [ed_load_file_region, hens, h2], ?_, inv2.hcap, hd2⟩
      rw [hcnt]
      split_ifs at hb <;> omega

/-- Witness of C18: the 4-byte input `é \r a` (`C3 A9 0D 61`) is loaded with
capacity 4 and 3 codepoints. -/
theorem load_within_capacity_witness :
    ∃ a2 r2, ed_load_file_region ([0xC3, 0xA9, 0x0D, 0x61].length + 1) [0xC3, 0xA9, 0x0D, 0x61]
        [0xC3, 0xA9, 0x0D, 0x61].length Arena.init Region.empty = some (a2, r2) ∧
      r2.count ≤ [0xC3, 0xA9, 0x0D, 0x61].length := by
  obtain ⟨a1, r1, _, _, _, _, a2, r2, h2, hc2, _, _⟩ :=
    load_within_capacity [0xC3, 0xA9, 0x0D, 0x61] Arena.init (by decide) (by decide)
  exact ⟨a2, r2, h2, hc2⟩

/-! ### C19 : the events depend on the bytes actually read -/

/-- The decoder reads at most the first `sz` bytes of its buffer. -/
theorem utf8_to_32_take (buf : List Nat) (sz u : Nat) :
    utf8_to_32 (buf.take sz) sz u = utf8_to_32 buf sz u := by
  have hrd : ∀ i, i < sz → rd (buf.take sz) i = rd buf i := by
    intro i hi
    simp [rd, List.getElem?_take_of_lt hi]
  unfold utf8_to_32
  by_cases h1 : sz < 1
  · rw [if_pos h1, if_pos h1]
  rw [if_neg h1, if_neg h1, hrd 0 (by omega)]
  by_cases c1 : rd buf 0 &&& 0x80 = 0x00
  · rw [if_pos c1, if_pos c1]
  rw [if_neg c1, if_neg c1]
  by_cases c2 : rd buf 0 &&& 0xE0 = 0xC0
  · rw [if_pos c2, if_pos c2]
    by_cases h2 : sz < 2
    · rw [if_pos h2, if_pos h2]
    · rw [if_neg h2, if_neg h2, hrd 1 (by omega)]
  rw [if_neg c2, if_neg c2]
  by_cases c3 : rd buf 0 &&& 0xF0 = 0xE0
  · rw [if_pos c3, if_pos c3]
    by_cases h3 : sz < 3
    · rw [if_pos h3, if_pos h3]
    · rw [if_neg h3, if_neg h3, hrd 1 (by omega), hrd 2 (by omega)]
  rw [if_neg c3, if_neg c3]
  by_cases c4 : rd buf 0 &&& 0xF8 = 0xF0
  · rw [if_pos c4, if_pos c4]
    by_cases h4 : sz < 4
    · rw [if_pos h4, if_pos h4]
    · rw [if_neg h4, if_neg h4, hrd 1 (by omega), hrd 2 (by omega), hrd 3 (by omega)]
  rw [if_neg c4, if_neg c4]

/-- The text branch depends on the bytes read only: two buffers that agree on
their first `bytes` bytes give the same result. -/
theorem text_loop_reads_chunk_only (fuel : Nat) (in1 in2 : List Nat) (bytes used : Nat)
    (pf : Pf) (h : in1.take bytes = in2.take bytes) :
    text_loop fuel in1 bytes used pf = text_loop fuel in2 bytes used pf := by
  have hdec : ∀ m u, m ≤ bytes → utf8_to_32 in1 m u = utf8_to_32 in2 m u := by
    intro m u hm
    rw [← utf8_to_32_take in1 m u, ← utf8_to_32_take in2 m u]
    have e1 : in1.take m = (in1.take bytes).take m := by
      rw [List.take_take, Nat.min_eq_left hm]
    have e2 : in2.take m = (in2.take bytes).take m := by
      rw [List.take_take, Nat.min_eq_left hm]
    rw [e1, e2, h]
  induction fuel generalizing used pf with
  | zero => rfl
  | succ f ih =>
    rw [text_loop, text_loop, hdec (bytes - used) used (by omega)]
    split_ifs
    · exact ih _ _
    · rfl

/-- The whole decoder depends on the bytes read only, once at least 3 bytes
were read or the chunk does not begin with `0x1B`. -/
theorem decode_input_reads_chunk_only (fuel : Nat) (in1 in2 : List Nat) (bytes : Nat)
    (pf : Pf) (h : in1.take bytes = in2.take bytes) (h1 : 1 ≤ bytes)
    (hb : 3 ≤ bytes ∨ rd in1 0 ≠ 0x1b) :
    decode_input fuel in1 bytes pf = decode_input fuel in2 bytes pf := by
  have hrd : ∀ i, i < bytes → rd in1 i = rd in2 i := by
    intro i hi
    have e1 : rd (in1.take bytes) i = rd in1 i := by simp [rd, List.getElem?_take_of_lt hi]
    have e2 : rd (in2.take bytes) i = rd in2 i := by simp [rd, List.getElem?_take_of_lt hi]
    rw [← e1, ← e2, h]
  have e0 := hrd 0 (by omega)
  unfold decode_input
  rw [e0]
  by_cases hesc : rd in2 0 = 0x1b
  · have h3 : 3 ≤ bytes := by
      rcases hb with hb | hb
      · exact hb
      · exact absurd (e0.trans hesc) hb
    rw [hrd 1 (by omega), hrd 2 (by omega)]
    simp only [hesc, if_true]
  · simp only [hesc, if_false]
    exact text_loop_reads_chunk_only fuel in1 in2 bytes 0 _ h

/-- C19 (the code at the failing input). One byte `0x1B` is read (`bytes = 1`)
into a buffer whose bytes 1 and 2 still hold `0x5B 0x41` in one case and zeros
in the other: the two buffers agree on the byte read, yet the first gives a
Key(Up) event and the second gives no event, because the escape branch tests
`input[1]` and `input[2]` without looking at `bytes`. -/
theorem escape_branch_reads_stale_bytes :
    (0x1b :: 0x5b :: 0x41 :: List.replicate 13 0).take 1 = (0x1b :: List.replicate 15 0).take 1 ∧
    (decode_input 0 (0x1b :: 0x5b :: 0x41 :: List.replicate 13 0) 1
        ⟨false, List.replicate 4 Event.zero, 0, Event.zero⟩).bind (drain_events 5)
      = some ([⟨.EVENT_KEY, 1⟩],
          ⟨false, ⟨.EVENT_KEY, 1⟩ :: List.replicate 3 Event.zero, 0, Event.zero⟩) ∧
    (decode_input 0 (0x1b :: List.replicate 15 0) 1
        ⟨false, List.replicate 4 Event.zero, 0, Event.zero⟩).bind (drain_events 5)
      = some ([], ⟨false, List.replicate 4 Event.zero, 0, Event.zero⟩) := by
  decide

/-! ### C20 : `editor_frame` paints the lines of the Region -/

/-- Once `x` has reached the width, the painting loop skips every remaining
codepoint, the `\n` included: nothing more is painted. -/
theorem paint_loop_stuck (t : List Nat) (e : Editor) (x y : Nat) (f : Frame)
    (hx : f.width ≤ x) : paint_loop t e x y f = some f := by
  induction t with
  | nil => rfl
  | cons cp t ih =>
    rw [paint_loop]
    by_cases hy : y ≥ f.height
    · rw [if_pos hy]
    · rw [if_neg hy, if_neg (by omega)]
      exact ih

/-- C20 (the code at the failing input). The Region `a b \n c d` painted on a
2 by 2 frame: the first line fills row 0, which leaves `x = width`, and from
then on the loop body is skipped for every codepoint, the `\n` included. Row 1
stays blank, where the second line `c d` belongs. -/
theorem editor_frame_full_line :
    ((ed_load_file_region 6 [0x61, 0x62, 0x0A, 0x63, 0x64] 5 Arena.init Region.empty).bind
      (fun s => (editor_frame s.1 ⟨s.2, ⟨3, 6⟩, ⟨0, 0⟩⟩
          ⟨false, List.replicate 4 Event.zero, 0, Event.zero⟩
          ⟨List.replicate 4 Text_Glyph.zero, 2, 2⟩).map
        (fun r => r.2.glyphs.map (fun g => g.codepoint))))
      = some [0x61, 0x62, 0x20, 0x20] ∧
    painted_ref [0x61, 0x62, 0x0A, 0x63, 0x64] 1 0 = 0x63 ∧
    painted_ref [0x61, 0x62, 0x0A, 0x63, 0x64] 1 1 = 0x64 := by
  decide

/-- The same Region on a 3 by 2 frame, where every line is shorter than the
width: each line is painted on its own row. -/
theorem editor_frame_short_lines :
    ((ed_load_file_region 6 [0x61, 0x62, 0x0A, 0x63, 0x64] 5 Arena.init Region.empty).bind
      (fun s => (editor_frame s.1 ⟨s.2, ⟨3, 6⟩, ⟨0, 0⟩⟩
          ⟨false, List.replicate 4 Event.zero, 0, Event.zero⟩
          ⟨List.replicate 6 Text_Glyph.zero, 3, 2⟩).map
        (fun r => r.2.glyphs.map (fun g => g.codepoint))))
      = some [0x61, 0x62, 0x20, 0x63, 0x64, 0x20] ∧
    (List.range 2).map (fun y => (List.range 3).map (fun x =>
        painted_ref [0x61, 0x62, 0x0A, 0x63, 0x64] y x))
      = [[0x61, 0x62, 0x20], [0x63, 0x64, 0x20]] := by
  decide

end Red
